/-
Verification of the aqua pluggable-component resolution framework
against its natural-language specification.

The development shallowly embeds the Python sources:
  * src/qiskit_aqua/_aqua.py                    (run_algorithm, run_algorithm_to_json)
  * src/qiskit_aqua/algorithms/adaptive/qaoa/qaoa.py        (QAOA.CONFIGURATION)
  * src/qiskit_aqua/algorithms/components/optimizers/nlopts/isres.py  (ISRES)
Parts of the repository that the claims depend on but that are not shipped
under src/ (InputParser.parse / validate_merge_defaults, the JSONSchema
validator, the Optimizer base class, the pluggable registry, and the
behaviour of the external json library used for persistence) are modelled
from the specification; each such definition carries a doc comment starting
with `Modelled from the spec:`.

Machine integers of the Python code are modelled as unbounded Int/Nat
(Python ints are unbounded); JSON "number" is modelled as Int (the
configurations the claims exercise carry no floating-point literals).
-/
import Mathlib

namespace Aqua

/-- JSON-like configuration value, the currency of the configuration system.
Objects are association lists in insertion order, mirroring Python `dict`
(keys unique, order preserved, appends go to the end). -/
inductive JValue where
  | null : JValue
  | bool : Bool → JValue
  | int : Int → JValue
  | str : String → JValue
  | arr : List JValue → JValue
  | obj : List (String × JValue) → JValue

/-- Properties of one configuration section: an ordered key/value mapping. -/
abbrev Props := List (String × JValue)

/-- A configuration: section name (role) mapped to its properties. -/
abbrev Config := List (String × Props)

/-- Lookup in an association list: first binding wins (Python dict lookup). -/
def lookupKV {α : Type} : List (String × α) → String → Option α
  | [], _ => none
  | (k, v) :: rest, key => if k = key then some v else lookupKV rest key

/-- Python dict assignment `d[key] = v`: replace in place if the key exists,
otherwise append at the end. -/
def setKV {α : Type} : List (String × α) → String → α → List (String × α)
  | [], key, v => [(key, v)]
  | (k, w) :: rest, key, v =>
    if k = key then (key, v) :: rest else (k, w) :: setKV rest key v

/-! ## Optimizer abstraction (spec section 4.4) and the ISRES variant

The numeric domain is abstract: parameter points are integer vectors and the
objective is an arbitrary function, since the framework never interprets
objective values (spec section 1, non-goal). -/

/-- A parameter point handed to an objective evaluator. -/
abbrev Point := List Int

/-- Objective evaluator: parameter vector to figure of merit. -/
abbrev ObjectiveFn := Point → Int

/-- Optional gradient evaluator. -/
abbrev GradientFn := Point → Point

/-- Per-variable bounds. -/
abbrev Bounds := List (Int × Int)

/-- Declared capability requirement of an optimizer variant
(spec glossary: required / supported / ignored). -/
inductive SupportLevel where
  | required : SupportLevel
  | supported : SupportLevel
  | ignored : SupportLevel
deriving DecidableEq

/-- The three declared capabilities of an optimizer variant. -/
structure OptimizerSupport where
  gradient : SupportLevel
  bounds : SupportLevel
  initial_point : SupportLevel

/-- ISRES.CONFIGURATION.support_level, from
src/.../optimizers/nlopts/isres.py lines 52-56. -/
def ISRES_support_level : OptimizerSupport :=
  { gradient := SupportLevel.ignored
    bounds := SupportLevel.supported
    initial_point := SupportLevel.required }

/-- ISRES.CONFIGURATION.input_schema default options: max_evals = 1000
(isres.py lines 44-49, 57). -/
def ISRES_options : Props := [("max_evals", JValue.int 1000)]

/-- Failure raised by the optimizer abstraction when a problem lacks a
capability an optimizer variant declared as required. -/
inductive OptError where
  | capabilityError (capability : String) : OptError
deriving DecidableEq

/-- Result reported by an optimizer variant: best point, best value, and the
number of objective evaluations performed. -/
structure OptResult where
  point : Point
  value : Int
  nfev : Nat

/-- Modelled from the spec: the Optimizer base-class `optimize` validation
(the Optimizer base class is not under src/). Before iterating, the problem
is checked against the declared support levels: a capability marked
`required` but absent fails with `OptimizerCapabilityError` (spec section
4.4). -/
def validateSupport (s : OptimizerSupport)
    (hasGradient hasBounds hasInitialPoint : Bool) : Except OptError Unit :=
  if s.gradient = SupportLevel.required ∧ hasGradient = false then
    Except.error (OptError.capabilityError "gradient")
  else if s.bounds = SupportLevel.required ∧ hasBounds = false then
    Except.error (OptError.capabilityError "bounds")
  else if s.initial_point = SupportLevel.required ∧ hasInitialPoint = false then
    Except.error (OptError.capabilityError "initial_point")
  else Except.ok ()

/-- Signature of the external nlopt-backed `minimize` routine
(_nloptimizer.py is not under src/; the routine is abstract here). Its
argument list is exactly what ISRES.optimize passes at isres.py line 80:
the objective function, the variable bounds, the initial point, and the
configured options — no gradient parameter exists. -/
abbrev MinimizeFn :=
  ObjectiveFn → Option Bounds → Option Point → Props → OptResult

/-- ISRES.optimize (isres.py lines 76-80): first run the base-class
support-level validation (`super().optimize(...)`), then call the nlopt
minimize routine. The second component counts objective evaluations
actually performed: zero when validation fails (minimize is never entered),
otherwise whatever the numeric routine reports. -/
def ISRES_optimize (minimizeImpl : MinimizeFn) (options : Props)
    (numVars : Nat) (objectiveFunction : ObjectiveFn)
    (gradientFunction : Option GradientFn)
    (variableBounds : Option Bounds) (initialPoint : Option Point) :
    Except OptError OptResult × Nat :=
  match validateSupport ISRES_support_level
      gradientFunction.isSome variableBounds.isSome initialPoint.isSome with
  | Except.error e => (Except.error e, 0)
  | Except.ok _ =>
    let r := minimizeImpl objectiveFunction variableBounds initialPoint options
    (Except.ok r, r.nfev)

/-! ## Configuration schemas and the component registry
(spec sections 3, 4.1; concrete schemas from the sources) -/

/-- Primitive JSON-schema type names occurring in the sources
("string", "integer", "boolean", "array", "null", "object"). -/
inductive PrimType where
  | pString : PrimType
  | pInteger : PrimType
  | pBoolean : PrimType
  | pArray : PrimType
  | pNull : PrimType
  | pObject : PrimType
deriving DecidableEq

/-- Does a value match one of the declared primitive types?
A type list models schema entries such as `'type': ['array', 'null']`. -/
def typeOk (ts : List PrimType) (v : JValue) : Bool :=
  ts.any fun t =>
    match t, v with
    | PrimType.pString, JValue.str _ => true
    | PrimType.pInteger, JValue.int _ => true
    | PrimType.pBoolean, JValue.bool _ => true
    | PrimType.pArray, JValue.arr _ => true
    | PrimType.pNull, JValue.null => true
    | PrimType.pObject, JValue.obj _ => true
    | _, _ => false

/-- Declared contract of one schema property: type list, optional default,
optional numeric minimum, optional enum of admissible strings (every enum in
the sources is a string enum), optional item types for arrays. -/
structure PropSchema where
  types : List PrimType
  default : Option JValue
  minimum : Option Int
  enumVals : Option (List String)
  itemTypes : Option (List PrimType)

/-- Configuration schema of one component: per-property contracts plus the
flag rejecting unknown properties (`additionalProperties`). -/
structure Schema where
  properties : List (String × PropSchema)
  additionalProperties : Bool

/-- Descriptor of a registered component variant (spec section 3):
unique name, configuration schema, supported problem classes, declared
dependent roles with their default sub-selections, availability. -/
structure ComponentDescriptor where
  name : String
  schema : Schema
  problems : List String
  depends : List String
  defaults : List (String × Props)
  available : Bool

/-- Modelled from the spec: the pluggable registry (the _discover machinery
is not under src/). Pluggable roles map to their registered variants; plain
sections ("problem", "backend") carry a fixed schema and no per-name
descriptor. -/
structure Registry where
  pluggable : List (String × List ComponentDescriptor)
  plain : List (String × Schema)

/-- Registry lookup: a variant that exists but whose availability predicate
is false is invisible (spec section 4.1). -/
def Registry.lookupDesc (reg : Registry) (role compName : String) :
    Option ComponentDescriptor :=
  match lookupKV reg.pluggable role with
  | none => none
  | some ds => ds.find? fun d => d.name == compName && d.available

/-- Registry listing: only variants whose availability predicate holds
(spec section 4.1). -/
def Registry.listNames (reg : Registry) (role : String) : List String :=
  match lookupKV reg.pluggable role with
  | none => []
  | some ds => (ds.filter fun d => d.available).map fun d => d.name

/-- Domain-specific resolution failures (spec section 7). -/
inductive ResolveError where
  | configurationError (sectionName property msg : String) : ResolveError
  | componentNotFound (role compName : String) : ResolveError
  | dependencyCycle : ResolveError
  | dependencyResolution (role : String) : ResolveError
  | unknownSection (sectionName : String) : ResolveError
  | missingAlgorithmName : ResolveError
deriving DecidableEq

/-! ## Default merging (spec section 4.2 step 2) -/

mutual
/-- Merge one schema default into a present value: nested sub-object
defaults merge recursively, anything else keeps the user's value
(spec section 4.2 step 2). -/
def mergeValue : JValue → JValue → JValue
  | JValue.obj dfs, JValue.obj vfs => JValue.obj (mergeFields dfs vfs)
  | _, v => v

/-- Merge declared defaults into a property mapping: a property absent in
the section is appended with its default, a present one is recursively
merged. Mirrors a Python loop of dict assignments, so insertion order is
preserved and appends go last. -/
def mergeFields : List (String × JValue) → List (String × JValue) →
    List (String × JValue)
  | [], vfs => vfs
  | (k, dv) :: rest, vfs =>
    match lookupKV vfs k with
    | some v => mergeFields rest (setKV vfs k (mergeValue dv v))
    | none => mergeFields rest (vfs ++ [(k, dv)])
end

/-- The defaults declared by a schema, in schema order. -/
def schemaDefaults (s : Schema) : List (String × JValue) :=
  s.properties.filterMap fun kp =>
    match kp.2.default with
    | some d => some (kp.1, d)
    | none => none

/-! ## Selection and dependency-default synthesis (spec section 4.2 step 1) -/

/-- Does a section carry an explicit component name? -/
def hasName (ps : Props) : Bool := (lookupKV ps "name").isSome

/-- The selected component name of a section, when its "name" property is a
string. -/
def getName (ps : Props) : Option String :=
  match lookupKV ps "name" with
  | some (JValue.str s) => some s
  | _ => none

/-- One synthesis step for a required role (spec section 4.2 step 1): an
absent section is synthesized from the depending descriptor's declared
default, a present section without a name receives the default's entries,
and a named section is left as it stands. Returns the section together
with the updated configuration. -/
def synthStep (cfg : Config) (role : String) (dprops : Props) : Props × Config :=
  match lookupKV cfg role with
  | none => (dprops, cfg ++ [(role, dprops)])
  | some s =>
    if hasName s then (s, setKV cfg role s)
    else (mergeFields dprops s, setKV cfg role (mergeFields dprops s))

/-- Modelled from the spec: dependency-default synthesis (spec section 4.2
step 1; InputParser is not under src/). The worklist carries each required
role together with the depending descriptor's declared default
sub-selection; selection recurses through the selected descriptor's own
declared dependencies. The fuel bounds the recursion and exhausting it
rejects circular default chains with DependencyCycleError. -/
def synthDeps (reg : Registry) :
    Nat → List (String × Props) → Config → Except ResolveError Config
  | _, [], cfg => Except.ok cfg
  | 0, _ :: _, _ => Except.error ResolveError.dependencyCycle
  | fuel + 1, (role, dprops) :: rest, cfg =>
    match getName (synthStep cfg role dprops).1 with
    | none => Except.error (ResolveError.dependencyResolution role)
    | some n =>
      match reg.lookupDesc role n with
      | none => Except.error (ResolveError.componentNotFound role n)
      | some d =>
        synthDeps reg fuel
          (rest ++ d.depends.map fun r => (r, (lookupKV d.defaults r).getD []))
          (synthStep cfg role dprops).2

/-! ## Schema determination, merging and validation per section
(spec section 4.2 steps 2 and 3) -/

/-- Modelled from the spec: which schema governs a section. A plain section
("problem", "backend") has a fixed schema; a pluggable section is governed
by the schema of the variant its "name" property selects; anything else is
an unknown section. -/
def sectionSchema (reg : Registry) (role : String) (ps : Props) :
    Except ResolveError Schema :=
  match lookupKV reg.plain role with
  | some sch => Except.ok sch
  | none =>
    match lookupKV reg.pluggable role with
    | none => Except.error (ResolveError.unknownSection role)
    | some _ =>
      match getName ps with
      | none =>
        Except.error
          (ResolveError.configurationError role "name" "missing component name")
      | some n =>
        match reg.lookupDesc role n with
        | none => Except.error (ResolveError.componentNotFound role n)
        | some d => Except.ok d.schema

/-- Merge a section's schema defaults into it. -/
def mergeSection (reg : Registry) (role : String) (ps : Props) :
    Except ResolveError Props :=
  match sectionSchema reg role ps with
  | Except.error e => Except.error e
  | Except.ok sch => Except.ok (mergeFields (schemaDefaults sch) ps)

/-- Merge defaults into every section, in configuration order. -/
def mergeStage (reg : Registry) : Config → Except ResolveError Config
  | [] => Except.ok []
  | (role, ps) :: rest =>
    match mergeSection reg role ps with
    | Except.error e => Except.error e
    | Except.ok ps' =>
      match mergeStage reg rest with
      | Except.error e => Except.error e
      | Except.ok rest' => Except.ok ((role, ps') :: rest')

/-- Is an integer value below the declared minimum? -/
def belowMin (m? : Option Int) (v : JValue) : Bool :=
  match m?, v with
  | some m, JValue.int n => decide (n < m)
  | _, _ => false

/-- Does a value satisfy a declared string enum? -/
def enumOk (vs? : Option (List String)) (v : JValue) : Bool :=
  match vs? with
  | none => true
  | some vs =>
    match v with
    | JValue.str s => vs.contains s
    | _ => false

/-- Do the elements of an array value satisfy the declared item types? -/
def itemsOk (ts? : Option (List PrimType)) (v : JValue) : Bool :=
  match ts?, v with
  | some ts, JValue.arr xs => xs.all fun x => typeOk ts x
  | _, _ => true

/-- Modelled from the spec: validation of one property value against its
declared contract (spec section 4.2 step 3): type, numeric minimum, enum,
array item types, in that order; the first violation raises
ConfigurationError naming the section and the property. -/
def validateProp (role key : String) (ps : PropSchema) (v : JValue) :
    Except ResolveError Unit :=
  if typeOk ps.types v = false then
    Except.error (ResolveError.configurationError role key "type mismatch")
  else if belowMin ps.minimum v = true then
    Except.error
      (ResolveError.configurationError role key "value below declared minimum")
  else if enumOk ps.enumVals v = false then
    Except.error
      (ResolveError.configurationError role key "value not in declared enum")
  else if itemsOk ps.itemTypes v = false then
    Except.error
      (ResolveError.configurationError role key "array item type mismatch")
  else Except.ok ()

/-- Modelled from the spec: validate a section's properties against its
schema, in section order; unknown properties are rejected unless the schema
admits additional properties; the "name" selector must be a string. -/
def validatePropsAgainst (role : String) (sch : Schema) :
    Props → Except ResolveError Unit
  | [] => Except.ok ()
  | (k, v) :: rest =>
    if k = "name" then
      match v with
      | JValue.str _ => validatePropsAgainst role sch rest
      | _ =>
        Except.error (ResolveError.configurationError role "name"
          "component name must be a string")
    else
      match lookupKV sch.properties k with
      | none =>
        if sch.additionalProperties then validatePropsAgainst role sch rest
        else
          Except.error
            (ResolveError.configurationError role k "unknown property")
      | some ps =>
        match validateProp role k ps v with
        | Except.error e => Except.error e
        | Except.ok _ => validatePropsAgainst role sch rest

/-- Validate one section against the schema that governs it. -/
def validateSection (reg : Registry) (role : String) (ps : Props) :
    Except ResolveError Unit :=
  match sectionSchema reg role ps with
  | Except.error e => Except.error e
  | Except.ok sch => validatePropsAgainst role sch ps

/-- Validate every section, in configuration order; the first violation
aborts (spec section 7: raised eagerly, before any construction). -/
def validateStage (reg : Registry) : Config → Except ResolveError Unit
  | [] => Except.ok ()
  | (role, ps) :: rest =>
    match validateSection reg role ps with
    | Except.error e => Except.error e
    | Except.ok _ => validateStage reg rest

/-! ## The resolution pipeline (InputParser.parse + validate_merge_defaults,
invoked by run_algorithm at _aqua.py lines 54-56) -/

/-- The explicitly selected top-level algorithm. -/
def algoSectionName (cfg : Config) : Except ResolveError String :=
  match lookupKV cfg "algorithm" with
  | none => Except.error ResolveError.missingAlgorithmName
  | some ps =>
    match getName ps with
    | none => Except.error ResolveError.missingAlgorithmName
    | some n => Except.ok n

/-- Total number of registered variants. -/
def descCount (reg : Registry) : Nat :=
  reg.pluggable.foldl (fun a kv => a + kv.2.length) 0

/-- Fuel for dependency synthesis: generous in the registry size, so that
only genuinely circular default chains exhaust it. -/
def selectFuel (reg : Registry) : Nat :=
  (descCount reg + 2) * (descCount reg + 2)

/-- Modelled from the spec: the full resolution of a raw configuration
(spec section 4.2; InputParser.parse and validate_merge_defaults are not
under src/): determine the selected algorithm, synthesize missing dependent
sections from declared defaults, merge every section with its schema
defaults, and validate every merged section. The output is the
ResolvedConfiguration. -/
def resolve (reg : Registry) (raw : Config) : Except ResolveError Config :=
  match algoSectionName raw with
  | Except.error e => Except.error e
  | Except.ok an =>
    match reg.lookupDesc "algorithm" an with
    | none => Except.error (ResolveError.componentNotFound "algorithm" an)
    | some d₀ =>
      match synthDeps reg (selectFuel reg)
          (d₀.depends.map fun r => (r, (lookupKV d₀.defaults r).getD [])) raw with
      | Except.error e => Except.error e
      | Except.ok cfgS =>
        match mergeStage reg cfgS with
        | Except.error e => Except.error e
        | Except.ok cfgM =>
          match validateStage reg cfgM with
          | Except.error e => Except.error e
          | Except.ok _ => Except.ok cfgM

/-! ## Concrete descriptors -/

/-- QAOA.CONFIGURATION, from src/.../adaptive/qaoa/qaoa.py lines 35-76:
schema properties operator_mode (string, default "matrix", enum), p
(integer, default 1, minimum 1), initial_point (array-or-null of numbers,
default null), batch_mode (boolean, default false); additionalProperties
false; problems ["ising"]; depends on the optimizer role with declared
default name "COBYLA". JSON "number" items are modelled as integers. -/
def qaoaDescriptor : ComponentDescriptor :=
  { name := "QAOA.Variational"
    schema :=
      { properties :=
          [ ("operator_mode",
              { types := [PrimType.pString]
                default := some (JValue.str "matrix")
                minimum := none
                enumVals := some ["matrix", "paulis", "grouped_paulis"]
                itemTypes := none })
          , ("p",
              { types := [PrimType.pInteger]
                default := some (JValue.int 1)
                minimum := some 1
                enumVals := none
                itemTypes := none })
          , ("initial_point",
              { types := [PrimType.pArray, PrimType.pNull]
                default := some JValue.null
                minimum := none
                enumVals := none
                itemTypes := some [PrimType.pInteger] })
          , ("batch_mode",
              { types := [PrimType.pBoolean]
                default := some (JValue.bool false)
                minimum := none
                enumVals := none
                itemTypes := none }) ]
        additionalProperties := false }
    problems := ["ising"]
    depends := ["optimizer"]
    defaults := [("optimizer", [("name", JValue.str "COBYLA")])]
    available := true }

/-- Modelled from the spec: the COBYLA optimizer variant named as QAOA's
declared default (spec section 8, scenario A). Its own module is not under
src/, so its schema carries a representative property set with declared
defaults; the theorems about dependency defaulting are stated for an
arbitrary COBYLA descriptor and only instantiated with this one. -/
def cobylaDescriptor : ComponentDescriptor :=
  { name := "COBYLA"
    schema :=
      { properties :=
          [ ("maxiter",
              { types := [PrimType.pInteger]
                default := some (JValue.int 1000)
                minimum := none
                enumVals := none
                itemTypes := none })
          , ("disp",
              { types := [PrimType.pBoolean]
                default := some (JValue.bool false)
                minimum := none
                enumVals := none
                itemTypes := none })
          , ("tol",
              { types := [PrimType.pInteger, PrimType.pNull]
                default := some JValue.null
                minimum := none
                enumVals := none
                itemTypes := none }) ]
        additionalProperties := false }
    problems := []
    depends := []
    defaults := []
    available := true }

/-- Outcome of probing importlib for the nlopt module
(isres.py lines 64-74): the module was found, it was absent (find_spec
returned None), or probing itself raised. -/
inductive SpecProbe where
  | found : SpecProbe
  | absent : SpecProbe
  | raised : SpecProbe
deriving DecidableEq

/-- ISRES.check_pluggable_valid, from isres.py lines 64-74: probe
importlib.util.find_spec("nlopt") inside a try/except; a found spec yields
True, an absent module or a raised probe falls through to return False.
The function is total — it never raises. -/
def check_pluggable_valid (probe : SpecProbe) : Bool :=
  match probe with
  | SpecProbe.found => true
  | SpecProbe.absent => false
  | SpecProbe.raised => false

/-- The ISRES descriptor, from isres.py lines 37-59: schema property
max_evals (integer, default 1000), additionalProperties false, no declared
dependencies; availability given by check_pluggable_valid on the probe
outcome of the deployment environment. -/
def isresDescriptor (probe : SpecProbe) : ComponentDescriptor :=
  { name := "ISRES"
    schema :=
      { properties :=
          [ ("max_evals",
              { types := [PrimType.pInteger]
                default := some (JValue.int 1000)
                minimum := none
                enumVals := none
                itemTypes := none }) ]
        additionalProperties := false }
    problems := []
    depends := []
    defaults := []
    available := check_pluggable_valid probe }

/-- Modelled from the spec: the fixed schema of the "problem" section
(cross-cutting settings such as a random seed, spec section 6). -/
def problemSchema : Schema :=
  { properties :=
      [ ("random_seed",
          { types := [PrimType.pInteger, PrimType.pNull]
            default := some JValue.null
            minimum := none
            enumVals := none
            itemTypes := none }) ]
    additionalProperties := false }

/-- Modelled from the spec: the fixed schema of the "backend" section,
which carries backend-selection properties plus arbitrary backend-specific
keys (spec section 6), hence admits additional properties. -/
def backendSchema : Schema :=
  { properties := []
    additionalProperties := true }

/-- The model registry for the concrete scenarios, with the nlopt probe of
the environment as a parameter for the availability-gating claim. -/
def registryWith (probe : SpecProbe) : Registry :=
  { pluggable :=
      [ ("algorithm", [qaoaDescriptor])
      , ("optimizer", [cobylaDescriptor, isresDescriptor probe]) ]
    plain := [("problem", problemSchema), ("backend", backendSchema)] }

/-- The model registry in an environment where nlopt is present. -/
def reg0 : Registry := registryWith SpecProbe.found

/-! ## The execution driver: run_algorithm (_aqua.py lines 38-97) -/

/-- An external evaluation backend object (qiskit BaseBackend); the
framework never inspects it, so it is opaque data. -/
structure Backend where
  id : Nat
deriving DecidableEq

/-- A backend setup argument: either a configuration value taken from the
"backend" section or the backend object supplied directly to run_algorithm. -/
inductive BVal where
  | j : JValue → BVal
  | inst : Backend → BVal

/-- The backend configuration assembled by run_algorithm from the resolved
"backend" section (_aqua.py lines 66-70): when the section names a backend,
every entry except "name" is copied, then the selected name is stored under
the key "backend". -/
def backendConfigOf (resolved : Config) : Option (List (String × BVal)) :=
  match lookupKV resolved "backend" with
  | none => none
  | some sec =>
    match lookupKV sec "name" with
    | none => none
    | some nv =>
      some (setKV ((sec.filter fun kv => kv.1 != "name").map
        fun kv => (kv.1, BVal.j kv.2)) "backend" (BVal.j nv))

/-- The backend-object override (_aqua.py lines 72-76): a BaseBackend
instance supplied directly is stored under "backend", on top of the section
configuration if one was assembled, otherwise in a fresh configuration. -/
def applyBackendArg (cfg? : Option (List (String × BVal))) (b? : Option Backend) :
    Option (List (String × BVal)) :=
  match b? with
  | none => cfg?
  | some b => some (setKV (cfg?.getD []) "backend" (BVal.inst b))

/-- The keyword arguments run_algorithm hands to setup_quantum_backend
(_aqua.py lines 90-91); empty when no backend was configured (in which case
setup_quantum_backend is not called). -/
def setupArgsOf (r : Config) (b? : Option Backend) : List (String × BVal) :=
  (applyBackendArg (backendConfigOf r) b?).getD []

/-- Failures surfaced by run_algorithm itself. -/
inductive RunError where
  | resolutionFailed (e : ResolveError) : RunError
  | missingAlgorithmName : RunError
  | algorithmNotLocal (compName : String) : RunError
deriving DecidableEq

/-- Observable outcome of a run_algorithm call short of the numeric
execution itself: which components were constructed and which backend
setup arguments were forwarded. -/
structure RunTrace where
  constructed : List String
  backendSetupArgs : Option (List (String × BVal))

/-- run_algorithm (_aqua.py lines 38-93): resolve the raw configuration
(parse + validate_merge_defaults, lines 54-56), require a locally known
algorithm name (lines 59-64), assemble the backend configuration (lines
66-76), construct the algorithm and forward the backend configuration to
setup_quantum_backend (lines 86-91). Input-adapter construction and the
numeric run are elided; the trace records construction and forwarding. -/
def runAlgorithm (reg : Registry) (params : Config) (backendArg : Option Backend) :
    Except RunError RunTrace :=
  match resolve reg params with
  | Except.error e => Except.error (RunError.resolutionFailed e)
  | Except.ok r =>
    let an? := match lookupKV r "algorithm" with
      | none => none
      | some ps => getName ps
    match an? with
    | none => Except.error RunError.missingAlgorithmName
    | some n =>
      if (reg.listNames "algorithm").contains n then
        Except.ok
          { constructed := [n]
            backendSetupArgs := applyBackendArg (backendConfigOf r) backendArg }
      else Except.error (RunError.algorithmNotLocal n)

/-- The components a run_algorithm call constructs: none when it fails
before construction (resolution errors abort eagerly, spec section 7). -/
def constructedComponents (reg : Registry) (params : Config)
    (backendArg : Option Backend) : List String :=
  match runAlgorithm reg params backendArg with
  | Except.error _ => []
  | Except.ok t => t.constructed

/-- Scenario B raw configuration: QAOA with p = 0 where the schema declares
minimum 1 (qaoa.py lines 50-54). -/
def c4raw : Config :=
  [("algorithm", [("name", JValue.str "QAOA.Variational"), ("p", JValue.int 0)])]

/-- Claim C4 as stated: for every raw configuration whose algorithm section
selects QAOA (whose schema declares minimum 1 for "p", qaoa.py lines 50-54)
and sets property "p" to 0, resolution fails with a ConfigurationError
naming section "algorithm" and property "p". -/
def schemaRejectionClaim (reg : Registry) (raw : Config) : Prop :=
  ∀ aps, lookupKV raw "algorithm" = some aps →
    getName aps = some "QAOA.Variational" →
    lookupKV aps "p" = some (JValue.int 0) →
    ∃ msg, resolve reg raw
      = Except.error (ResolveError.configurationError "algorithm" "p" msg)

/-- A raw configuration setting p to 0 whose algorithm section also carries
an unknown property listed before "p". -/
def c4cex : Config :=
  [("algorithm",
    [ ("name", JValue.str "QAOA.Variational")
    , ("extra_knob", JValue.int 1)
    , ("p", JValue.int 0) ])]

/-- Claim C7 as stated: for every raw configuration whose "backend" section
has a "name" property, run_algorithm forwards every key/value pair of that
(resolved) section except "name" verbatim to setup_quantum_backend, with
the selected backend name under the key "backend". -/
def backendForwardingClaim (reg : Registry) (raw : Config) : Prop :=
  ∀ r sec nv, resolve reg raw = Except.ok r →
    lookupKV r "backend" = some sec →
    lookupKV sec "name" = some nv →
    (∀ k v, k ≠ "name" → lookupKV sec k = some v →
      lookupKV (setupArgsOf r none) k = some (BVal.j v))
    ∧ lookupKV (setupArgsOf r none) "backend" = some (BVal.j nv)

/-- A raw configuration whose backend section carries a backend-specific
key literally called "backend" (the spec admits arbitrary backend-specific
keys, section 6). -/
def c7raw : Config :=
  [ ("algorithm", [("name", JValue.str "QAOA.Variational")])
  , ("backend", [("name", JValue.str "b1"), ("backend", JValue.str "x")]) ]

/-- The resolved form of c7raw under the model registry. -/
def c7resolved : Config :=
  [ ("algorithm",
      [ ("name", JValue.str "QAOA.Variational")
      , ("operator_mode", JValue.str "matrix")
      , ("p", JValue.int 1)
      , ("initial_point", JValue.null)
      , ("batch_mode", JValue.bool false) ])
  , ("backend", [("name", JValue.str "b1"), ("backend", JValue.str "x")])
  , ("optimizer",
      [ ("name", JValue.str "COBYLA")
      , ("maxiter", JValue.int 1000)
      , ("disp", JValue.bool false)
      , ("tol", JValue.null) ]) ]

/-- A resolved configuration whose backend section forwards a
backend-specific "shots" key. -/
def c7wres : Config :=
  [ ("algorithm",
      [ ("name", JValue.str "QAOA.Variational")
      , ("operator_mode", JValue.str "matrix")
      , ("p", JValue.int 1)
      , ("initial_point", JValue.null)
      , ("batch_mode", JValue.bool false) ])
  , ("backend", [("name", JValue.str "b1"), ("shots", JValue.int 100)])
  , ("optimizer",
      [ ("name", JValue.str "COBYLA")
      , ("maxiter", JValue.int 1000)
      , ("disp", JValue.bool false)
      , ("tol", JValue.null) ]) ]

/-! ## run_algorithm_to_json (_aqua.py lines 100-134) -/

/-- An external input artifact (AlgorithmInput): its property-form
serialization `to_params()` and the component name recorded in its
CONFIGURATION. -/
structure AlgoInput where
  params : Props
  configName : String

/-- run_algorithm_to_json (_aqua.py lines 100-134): resolve the raw
configuration exactly as run_algorithm does; when an input artifact is
supplied, store its property form (converted to the portable form by the
external jsonutils routine, abstracted as `conv`) under the "input" section
with the artifact's component name attached under "name"; persist the
result and return a mapping holding the output file name. No algorithm is
constructed or executed — the final Bool records whether a run happened
and is always false. -/
def runAlgorithmToJson (reg : Registry) (conv : Props → Props) (params : Config)
    (algoInput : Option AlgoInput) (jsonfile : String) :
    Except ResolveError (Config × Props × Bool) :=
  match resolve reg params with
  | Except.error e => Except.error e
  | Except.ok r =>
    let persisted := match algoInput with
      | none => r
      | some ai =>
        setKV r "input" (setKV (conv ai.params) "name" (JValue.str ai.configName))
    Except.ok (persisted, [("jsonfile", JValue.str jsonfile)], false)

/-! ## C3: dependency defaulting -/

/-- The registry of the dependency-defaulting scenario: QAOA as the only
algorithm, an arbitrary descriptor in the optimizer role. -/
def regC3 (cd : ComponentDescriptor) : Registry :=
  { pluggable := [("algorithm", [qaoaDescriptor]), ("optimizer", [cd])]
    plain := [("problem", problemSchema), ("backend", backendSchema)] }

/-- The resolved form of the scenario-A raw configurations. -/
def scenarioAResolved : Config :=
  [ ("algorithm",
      [ ("name", JValue.str "QAOA.Variational")
      , ("operator_mode", JValue.str "matrix")
      , ("p", JValue.int 1)
      , ("initial_point", JValue.null)
      , ("batch_mode", JValue.bool false) ])
  , ("optimizer",
      [ ("name", JValue.str "COBYLA")
      , ("maxiter", JValue.int 1000)
      , ("disp", JValue.bool false)
      , ("tol", JValue.null) ]) ]

/-! ## C1: idempotence of resolution.
First, a size measure and a duplicate-key-freedom predicate on values,
then the fixed-point lemmas about default merging. -/

mutual
/-- Size of a value, for strong induction. -/
def jsizeV : JValue → Nat
  | JValue.obj fs => 1 + jsizeFs fs
  | JValue.arr xs => 1 + jsizeL xs
  | _ => 1

def jsizeL : List JValue → Nat
  | [] => 0
  | x :: xs => jsizeV x + jsizeL xs

def jsizeFs : List (String × JValue) → Nat
  | [] => 0
  | kv :: fs => jsizeV kv.2 + jsizeFs fs
end

mutual
/-- Every object inside the value has duplicate-free keys (Python dicts
cannot carry duplicate keys, so every value of dict origin satisfies it). -/
def nodupJ : JValue → Bool
  | JValue.obj fs => decide ((fs.map Prod.fst).Nodup) && nodupJFs fs
  | JValue.arr xs => nodupJL xs
  | _ => true

def nodupJL : List JValue → Bool
  | [] => true
  | x :: xs => nodupJ x && nodupJL xs

def nodupJFs : List (String × JValue) → Bool
  | [] => true
  | kv :: fs => nodupJ kv.2 && nodupJFs fs
end

/-! ### Name stability through the pipeline -/

/-! ### Merge-stage stability -/

/-- Well-formedness of the schemas a registry declares: duplicate-free
default keys and duplicate-key-free default values — facts true of any
Python-dict-based schema. -/
def wfSchemaProp (sch : Schema) : Prop :=
  ((schemaDefaults sch).map Prod.fst).Nodup
  ∧ ∀ kv ∈ schemaDefaults sch, nodupJ kv.2 = true

/-- Well-formedness of a registry: every declared schema is well formed. -/
def wfReg (reg : Registry) : Prop :=
  (∀ e ∈ reg.pluggable, ∀ d ∈ e.2, wfSchemaProp d.schema)
  ∧ ∀ e ∈ reg.plain, wfSchemaProp e.2

/-! ### The idempotence theorem -/

/-! ## C2: round trip through persistence.
run_algorithm_to_json persists with `json.dump(..., sort_keys=True,
indent=4)` (_aqua.py line 130). The serializer below models that external
json library behaviour (ensure_ascii output, four-space indentation,
keys sorted at every level); the parser models `json.loads` on the
resulting text. -/

/-- An opening curly brace character. -/
def lbrace : Char := Char.ofNat 123

/-- A closing curly brace character. -/
def rbrace : Char := Char.ofNat 125

/-- Indentation of a nesting level: four spaces per level. -/
def mkIndent (n : Nat) : List Char := List.replicate (4 * n) ' '

/-- Lowercase hex digit. -/
def hexDig (n : Nat) : Char :=
  if n < 10 then Char.ofNat (48 + n) else Char.ofNat (87 + n)

/-- Four-digit lowercase hex rendering of a code unit. -/
def hex4 (n : Nat) : List Char :=
  [hexDig (n / 4096 % 16), hexDig (n / 256 % 16), hexDig (n / 16 % 16),
   hexDig (n % 16)]

/-- JSON string escaping of one character as json.dump with ensure_ascii
produces it: quote and backslash escaped, printable ASCII kept, the
two-character shortcuts for backspace/tab/newline/formfeed/return, \-u
escapes for other control and non-ASCII characters, and surrogate pairs
beyond the basic plane. -/
def escChar (c : Char) : List Char :=
  let n := c.toNat
  if c = '"' then ['\\', '"']
  else if c = '\\' then ['\\', '\\']
  else if 32 ≤ n ∧ n ≤ 126 then [c]
  else if n = 8 then ['\\', 'b']
  else if n = 9 then ['\\', 't']
  else if n = 10 then ['\\', 'n']
  else if n = 12 then ['\\', 'f']
  else if n = 13 then ['\\', 'r']
  else if n < 65536 then '\\' :: 'u' :: hex4 n
  else
    ('\\' :: 'u' :: hex4 (55296 + (n - 65536) / 1024))
      ++ ('\\' :: 'u' :: hex4 (56320 + (n - 65536) % 1024))

def escStr : List Char → List Char
  | [] => []
  | c :: cs => escChar c ++ escStr cs

/-- A JSON string literal. -/
def serStrLit (s : String) : List Char := '"' :: (escStr s.data ++ ['"'])

/-- Decimal digits of a natural number. -/
def natDigits (n : Nat) : List Char :=
  if h : n < 10 then [Char.ofNat (48 + n)]
  else natDigits (n / 10) ++ [Char.ofNat (48 + n % 10)]
decreasing_by omega

/-- Decimal rendering of an integer. -/
def serInt : Int → List Char
  | Int.ofNat n => natDigits n
  | Int.negSucc m => '-' :: natDigits (m + 1)

mutual
/-- Pretty-printed serialization of a value at a nesting level, in the
layout of json.dump with indent=4: containers open on their own line,
each child indented one level deeper, separators ", " and ",\n". Keys are
emitted in stored order; sorting happens before this printer runs. -/
def rawSerV : Nat → JValue → List Char
  | _, JValue.null => ['n', 'u', 'l', 'l']
  | _, JValue.bool true => ['t', 'r', 'u', 'e']
  | _, JValue.bool false => ['f', 'a', 'l', 's', 'e']
  | _, JValue.int n => serInt n
  | _, JValue.str s => serStrLit s
  | _, JValue.arr [] => ['[', ']']
  | lvl, JValue.arr (x :: xs) =>
    '[' :: '\n' :: (mkIndent (lvl + 1) ++ rawSerV (lvl + 1) x
      ++ rawSerItems (lvl + 1) xs ++ '\n' :: (mkIndent lvl ++ [']']))
  | _, JValue.obj [] => [lbrace, rbrace]
  | lvl, JValue.obj (kv :: fs) =>
    lbrace :: '\n' :: (mkIndent (lvl + 1) ++ serStrLit kv.1
      ++ ':' :: ' ' :: rawSerV (lvl + 1) kv.2
      ++ rawSerFields (lvl + 1) fs ++ '\n' :: (mkIndent lvl ++ [rbrace]))

def rawSerItems : Nat → List JValue → List Char
  | _, [] => []
  | lvl, x :: xs =>
    ',' :: '\n' :: (mkIndent lvl ++ rawSerV lvl x ++ rawSerItems lvl xs)

def rawSerFields : Nat → List (String × JValue) → List Char
  | _, [] => []
  | lvl, kv :: fs =>
    ',' :: '\n' :: (mkIndent lvl ++ serStrLit kv.1
      ++ ':' :: ' ' :: rawSerV lvl kv.2 ++ rawSerFields lvl fs)
end

/-- Insertion into a key-sorted association list. -/
def insertByKey (kv : String × JValue) :
    List (String × JValue) → List (String × JValue)
  | [] => [kv]
  | hd :: tl => if kv.1 < hd.1 then kv :: hd :: tl else hd :: insertByKey kv tl

/-- Insertion sort by key, modelling Python sorted() on dict keys. -/
def sortPairs : List (String × JValue) → List (String × JValue)
  | [] => []
  | kv :: fs => insertByKey kv (sortPairs fs)

mutual
/-- Recursively sort every object's keys, as sort_keys=True does at every
nesting level. -/
def sortJ : JValue → JValue
  | JValue.obj fs => JValue.obj (sortPairs (sortJFs fs))
  | JValue.arr xs => JValue.arr (sortJL xs)
  | JValue.null => JValue.null
  | JValue.bool b => JValue.bool b
  | JValue.int n => JValue.int n
  | JValue.str s => JValue.str s

def sortJL : List JValue → List JValue
  | [] => []
  | x :: xs => sortJ x :: sortJL xs

def sortJFs : List (String × JValue) → List (String × JValue)
  | [] => []
  | kv :: fs => (kv.1, sortJ kv.2) :: sortJFs fs
end

/-- A configuration as a JSON value: object of section objects. -/
def configToJ (c : Config) : JValue :=
  JValue.obj (c.map fun kv => (kv.1, JValue.obj kv.2))

/-- The persisted text of a resolved configuration, as
json.dump(algo_params, fp, sort_keys=True, indent=4) writes it. -/
def dumpsConfig (r : Config) : String :=
  String.mk (rawSerV 0 (sortJ (configToJ r)))

/-! ### The parser (modelling json.loads) -/

def isWs (c : Char) : Bool := c = ' ' || c = '\n' || c = '\t' || c = '\r'

def skipWs : List Char → List Char
  | [] => []
  | c :: cs => if isWs c then skipWs cs else c :: cs

def isDig (c : Char) : Bool := 48 ≤ c.toNat && c.toNat ≤ 57

/-- Greedy decimal scan with accumulator. -/
def munchDigits : List Char → Nat → Nat × List Char
  | [], acc => (acc, [])
  | c :: cs, acc =>
    if isDig c then munchDigits cs (acc * 10 + (c.toNat - 48)) else (acc, c :: cs)

def hexVal (c : Char) : Option Nat :=
  let n := c.toNat
  if 48 ≤ n ∧ n ≤ 57 then some (n - 48)
  else if 97 ≤ n ∧ n ≤ 102 then some (n - 87)
  else if 65 ≤ n ∧ n ≤ 70 then some (n - 55)
  else none

/-- Value of four hex digits. -/
def decodeHex4 (a b c d : Char) : Option Nat :=
  match hexVal a, hexVal b, hexVal c, hexVal d with
  | some x, some y, some z, some w => some (((x * 16 + y) * 16 + z) * 16 + w)
  | _, _, _, _ => none

/-- Decode a backslash-u escape given its four hex digits and the
continuation: a high surrogate must be followed by a second escape with a
low surrogate and decodes to the astral scalar; a lone surrogate is
rejected. -/
def parseUEsc (a b c d : Char) (r : List Char) : Option (Char × List Char) :=
  match decodeHex4 a b c d with
  | none => none
  | some m =>
    if 55296 ≤ m ∧ m < 56320 then
      match r with
      | '\\' :: 'u' :: g1 :: g2 :: g3 :: g4 :: r₂ =>
        match decodeHex4 g1 g2 g3 g4 with
        | none => none
        | some m₂ =>
          if 56320 ≤ m₂ ∧ m₂ < 57344 then
            some (Char.ofNat (65536 + (m - 55296) * 1024 + (m₂ - 56320)), r₂)
          else none
      | _ => none
    else if 56320 ≤ m ∧ m < 57344 then none
    else some (Char.ofNat m, r)

/-- Decode one string-escape after a backslash. -/
def parseEsc (cs : List Char) : Option (Char × List Char) :=
  match cs with
  | '"' :: r => some ('"', r)
  | '\\' :: r => some ('\\', r)
  | '/' :: r => some ('/', r)
  | 'b' :: r => some (Char.ofNat 8, r)
  | 't' :: r => some (Char.ofNat 9, r)
  | 'n' :: r => some (Char.ofNat 10, r)
  | 'f' :: r => some (Char.ofNat 12, r)
  | 'r' :: r => some (Char.ofNat 13, r)
  | 'u' :: h1 :: h2 :: h3 :: h4 :: r => parseUEsc h1 h2 h3 h4 r
  | _ => none

/-- Scan a string-literal body up to its closing quote, decoding escapes. -/
def parseStrBody : Nat → List Char → Option (List Char × List Char)
  | 0, _ => none
  | fuel + 1, cs =>
    match cs with
    | [] => none
    | c :: cs' =>
      if c = '"' then some ([], cs')
      else
        match (if c = '\\' then parseEsc cs' else some (c, cs')) with
        | none => none
        | some (ch, r) =>
          match parseStrBody fuel r with
          | none => none
          | some (body, rest) => some (ch :: body, rest)

mutual
/-- Recursive-descent JSON value parser (modelling json.loads):
whitespace-tolerant, distinguishing constructs by their first character.
The fuel strictly exceeds the nesting the input can express, so it never
runs out on serializer output. -/
def parseV : Nat → List Char → Option (JValue × List Char)
  | 0, _ => none
  | fuel + 1, cs =>
    match skipWs cs with
    | [] => none
    | c :: cs' =>
      if c = lbrace then
        match skipWs cs' with
        | [] => none
        | c₁ :: cs₂ =>
          if c₁ = rbrace then some (JValue.obj [], cs₂)
          else
            match parseField fuel (c₁ :: cs₂) with
            | none => none
            | some (kv, cs₃) =>
              match parseObjTail fuel cs₃ with
              | none => none
              | some (fs, cs₄) => some (JValue.obj (kv :: fs), cs₄)
      else if c = '[' then
        match skipWs cs' with
        | [] => none
        | c₁ :: cs₂ =>
          if c₁ = ']' then some (JValue.arr [], cs₂)
          else
            match parseV fuel (c₁ :: cs₂) with
            | none => none
            | some (x, cs₃) =>
              match parseArrTail fuel cs₃ with
              | none => none
              | some (xs, cs₄) => some (JValue.arr (x :: xs), cs₄)
      else if c = '"' then
        match parseStrBody fuel cs' with
        | none => none
        | some (body, cs₃) => some (JValue.str (String.mk body), cs₃)
      else if c = 'n' then
        match cs' with
        | 'u' :: 'l' :: 'l' :: cs₃ => some (JValue.null, cs₃)
        | _ => none
      else if c = 't' then
        match cs' with
        | 'r' :: 'u' :: 'e' :: cs₃ => some (JValue.bool true, cs₃)
        | _ => none
      else if c = 'f' then
        match cs' with
        | 'a' :: 'l' :: 's' :: 'e' :: cs₃ => some (JValue.bool false, cs₃)
        | _ => none
      else if c = '-' then
        match cs' with
        | d :: _ =>
          if isDig d then
            some (JValue.int (-((munchDigits cs' 0).1 : Int)), (munchDigits cs' 0).2)
          else none
        | [] => none
      else if isDig c then
        some (JValue.int ((munchDigits (c :: cs') 0).1 : Int),
          (munchDigits (c :: cs') 0).2)
      else none

/-- One `"key": value` member of an object. -/
def parseField : Nat → List Char → Option ((String × JValue) × List Char)
  | 0, _ => none
  | fuel + 1, cs =>
    match skipWs cs with
    | [] => none
    | c :: cs' =>
      if c = '"' then
        match parseStrBody fuel cs' with
        | none => none
        | some (key, cs₁) =>
          match skipWs cs₁ with
          | ':' :: cs₂ =>
            match parseV fuel cs₂ with
            | none => none
            | some (v, cs₃) => some ((String.mk key, v), cs₃)
          | _ => none
      else none

/-- Remaining members of an object after the first: a comma-led member or
the closing brace. -/
def parseObjTail : Nat → List Char → Option (List (String × JValue) × List Char)
  | 0, _ => none
  | fuel + 1, cs =>
    match skipWs cs with
    | c :: cs' =>
      if c = rbrace then some ([], cs')
      else if c = ',' then
        match parseField fuel cs' with
        | none => none
        | some (kv, cs₁) =>
          match parseObjTail fuel cs₁ with
          | none => none
          | some (fs, cs₂) => some (kv :: fs, cs₂)
      else none
    | [] => none

/-- Remaining elements of an array after the first. -/
def parseArrTail : Nat → List Char → Option (List JValue × List Char)
  | 0, _ => none
  | fuel + 1, cs =>
    match skipWs cs with
    | c :: cs' =>
      if c = ']' then some ([], cs')
      else if c = ',' then
        match parseV fuel cs' with
        | none => none
        | some (x, cs₁) =>
          match parseArrTail fuel cs₁ with
          | none => none
          | some (xs, cs₂) => some (x :: xs, cs₂)
      else none
    | [] => none
end

/-- json.loads on a whole document: one value, possibly surrounded by
whitespace, nothing after it. -/
def parseJson (s : String) : Option JValue :=
  match parseV (s.data.length + 1) s.data with
  | none => none
  | some (v, rest) => if skipWs rest = [] then some v else none

/-! ### Low-level round-trip facts: characters, hex, decimal -/

/-- Accumulating value of a digit run. -/
def digitsVal (acc : Nat) : List Char → Nat
  | [] => acc
  | c :: cs => digitsVal (acc * 10 + (c.toNat - 48)) cs

/-- The positional weight natDigits n carries. -/
def tenPow (n : Nat) : Nat :=
  if _h : n < 10 then 10 else tenPow (n / 10) * 10
decreasing_by omega

/-- After a serialized value, the continuation never begins with a digit,
so greedy number scanning stops exactly at the value boundary. -/
def goodRest : List Char → Bool
  | [] => true
  | c :: _ => !isDig c

/-! ### Whitespace facts -/

/-! ### The escape round trip -/

/-! ### Fuel accounting for the parser -/

mutual
/-- Fuel sufficient for the parser on the serialization of a value. -/
def needV : JValue → Nat
  | JValue.null => 1
  | JValue.bool _ => 1
  | JValue.int _ => 1
  | JValue.str s => 2 + s.length
  | JValue.arr xs => 1 + needL xs
  | JValue.obj fs => 1 + needFs fs

/-- Fuel sufficient on the tail elements of an array. -/
def needL : List JValue → Nat
  | [] => 1
  | x :: xs => 1 + needV x + needL xs

/-- Fuel sufficient on the tail members of an object. -/
def needFs : List (String × JValue) → Nat
  | [] => 1
  | kv :: fs => 3 + kv.1.length + needV kv.2 + needFs fs
end

/-! ### Head characters of serialized values -/

/-! ### The parser/serializer round trip -/

/-! ### The fuel the top-level parse supplies is sufficient -/

/-! ### Python dictionary equality on parsed values -/

mutual
/-- Python == on JSON values (CPython dict_equal): dictionaries compare by
length and per-key lookup of the left dict's keys in the right one, lists
elementwise, scalars by value. -/
def jeq : JValue → JValue → Bool
  | JValue.null, JValue.null => true
  | JValue.bool a, JValue.bool b => a == b
  | JValue.int a, JValue.int b => a == b
  | JValue.str a, JValue.str b => a == b
  | JValue.arr xs, JValue.arr ys => jeqL xs ys
  | JValue.obj fs, JValue.obj gs => (fs.length == gs.length) && jeqFs fs gs
  | _, _ => false
termination_by v w => needV v
decreasing_by all_goals (simp only [needV, needL, needFs]; omega)

def jeqL : List JValue → List JValue → Bool
  | [], [] => true
  | x :: xs, y :: ys => jeq x y && jeqL xs ys
  | _, _ => false
termination_by xs ys => needL xs
decreasing_by all_goals (simp only [needV, needL, needFs]; omega)

def jeqFs : List (String × JValue) → List (String × JValue) → Bool
  | [], _ => true
  | kv :: fs, gs =>
    (match lookupKV gs kv.1 with
     | some w => jeq kv.2 w
     | none => false) && jeqFs fs gs
termination_by fs gs => needFs fs
decreasing_by all_goals (simp only [needV, needL, needFs]; omega)
end

/-! ### Key sorting is a permutation, hence invisible to dict equality -/

/-! ### Duplicate-free keys survive the resolution pipeline -/

/-- Properties of Python-dict origin: duplicate-free keys at every level. -/
def wfProps (ps : Props) : Prop := nodupJ (JValue.obj ps) = true

/-- A raw configuration of Python-dict origin: duplicate-free section
names, every section duplicate-free at every level. -/
def wfConfig (c : Config) : Prop :=
  (c.map Prod.fst).Nodup ∧ ∀ kv ∈ c, wfProps kv.2

/-- The dependency defaults a registry declares are of Python-dict origin
as well. -/
def wfRegDefaults (reg : Registry) : Prop :=
  ∀ e ∈ reg.pluggable, ∀ d ∈ e.2, ∀ kv ∈ d.defaults, wfProps kv.2

theorem lookupKV_setKV_self {α : Type} (l : List (String × α)) (k : String) (v : α) :
    lookupKV (setKV l k v) k = some v := by
  induction l with
  | nil => simp [setKV, lookupKV]
  | cons hd tl ih =>
    obtain ⟨k', w⟩ := hd
    by_cases h : k' = k
    · simp [setKV, h, lookupKV]
    · simp [setKV, h, lookupKV, ih]

theorem lookupKV_setKV_other {α : Type} (l : List (String × α)) (k k' : String) (v : α)
    (h : k' ≠ k) : lookupKV (setKV l k v) k' = lookupKV l k' := by
  induction l with
  | nil => simp [setKV, lookupKV, Ne.symm h]
  | cons hd tl ih =>
    obtain ⟨k₀, w⟩ := hd
    by_cases h0 : k₀ = k
    · subst h0
      simp [setKV, lookupKV, Ne.symm h]
    · simp only [setKV, h0, if_false, lookupKV]
      by_cases h1 : k₀ = k'
      · simp [h1]
      · simp [h1, ih]

theorem setKV_lookup_self {α : Type} (l : List (String × α)) (k : String) (v : α)
    (h : lookupKV l k = some v) : setKV l k v = l := by
  induction l with
  | nil => simp [lookupKV] at h
  | cons hd tl ih =>
    obtain ⟨k₀, w⟩ := hd
    by_cases h0 : k₀ = k
    · subst h0
      simp [lookupKV] at h
      simp [setKV, h]
    · simp [lookupKV, h0] at h
      simp [setKV, h0, ih h]

theorem lookupKV_append_of_eq_none {α : Type} (l l' : List (String × α)) (k : String)
    (h : lookupKV l k = none) : lookupKV (l ++ l') k = lookupKV l' k := by
  induction l with
  | nil => simp
  | cons hd tl ih =>
    obtain ⟨k₀, w⟩ := hd
    by_cases h0 : k₀ = k
    · simp [lookupKV, h0] at h
    · simp [lookupKV, h0] at h ⊢
      exact ih h

theorem lookupKV_append_of_eq_some {α : Type} (l l' : List (String × α)) (k : String) (v : α)
    (h : lookupKV l k = some v) : lookupKV (l ++ l') k = some v := by
  induction l with
  | nil => simp [lookupKV] at h
  | cons hd tl ih =>
    obtain ⟨k₀, w⟩ := hd
    by_cases h0 : k₀ = k
    · simp [lookupKV, h0] at h ⊢
      exact h
    · simp [lookupKV, h0] at h ⊢
      exact ih h

/-- C5: capability enforcement. For every optimization problem with no
initial point, ISRES.optimize (whose support level marks initial_point as
required, isres.py line 55) fails with OptimizerCapabilityError for
"initial_point" and performs zero objective-function evaluations. -/
theorem c5_capability_enforcement (minimizeImpl : MinimizeFn) (options : Props)
    (numVars : Nat) (objectiveFunction : ObjectiveFn)
    (gradientFunction : Option GradientFn) (variableBounds : Option Bounds) :
    ISRES_optimize minimizeImpl options numVars objectiveFunction
        gradientFunction variableBounds none
      = (Except.error (OptError.capabilityError "initial_point"), 0) := by
  simp [ISRES_optimize, validateSupport, ISRES_support_level]

/-- C6: ignored-capability isolation. The result of ISRES.optimize does not
depend on the supplied gradient function in any way: ISRES declares gradient
support level ignored (isres.py line 53) so validation never consults it,
and the nlopt minimize call (isres.py line 80) receives only the objective
function, the variable bounds, the initial point and the configured options
(see MinimizeFn) — the gradient function is never passed to it. -/
theorem c6_gradient_never_passed (minimizeImpl : MinimizeFn) (options : Props)
    (numVars : Nat) (objectiveFunction : ObjectiveFn)
    (g₁ g₂ : Option GradientFn)
    (variableBounds : Option Bounds) (initialPoint : Option Point) :
    ISRES_optimize minimizeImpl options numVars objectiveFunction g₁
        variableBounds initialPoint
      = ISRES_optimize minimizeImpl options numVars objectiveFunction g₂
        variableBounds initialPoint := by
  simp [ISRES_optimize, validateSupport, ISRES_support_level]

/-- Additional association-list facts used by the forwarding proofs. -/
theorem lookupKV_mapVal {α β : Type} (f : α → β) (l : List (String × α)) (k : String) :
    lookupKV (l.map fun kv => (kv.1, f kv.2)) k = (lookupKV l k).map f := by
  induction l with
  | nil => simp [lookupKV]
  | cons hd tl ih =>
    obtain ⟨k₀, v₀⟩ := hd
    by_cases h : k₀ = k
    · simp [lookupKV, h]
    · simp [lookupKV, h, ih]

theorem lookupKV_filterKey {α : Type} (p : String → Bool) (l : List (String × α))
    (k : String) (h : p k = true) :
    lookupKV (l.filter fun kv => p kv.1) k = lookupKV l k := by
  induction l with
  | nil => simp
  | cons hd tl ih =>
    obtain ⟨k₀, v₀⟩ := hd
    by_cases h0 : k₀ = k
    · subst h0
      simp [List.filter, h, lookupKV]
    · by_cases hp : p k₀
      · simp [List.filter, hp, lookupKV, h0, ih]
      · simp [List.filter, hp, lookupKV, h0, ih]

/-- C7 counterexample: the claim fails on a backend section that itself
contains a key "backend". run_algorithm overwrites that entry with the
selected backend name (_aqua.py line 70), so the pair ("backend", "x") is
not forwarded verbatim. -/
theorem c7_counterexample : ¬ backendForwardingClaim reg0 c7raw := by
  intro h
  have h2 := h c7resolved
      [("name", JValue.str "b1"), ("backend", JValue.str "x")]
      (JValue.str "b1") rfl rfl rfl
  have h3 := h2.1 "backend" (JValue.str "x") (by decide) rfl
  have hcomp : lookupKV (setupArgsOf c7resolved none) "backend"
      = some (BVal.j (JValue.str "b1")) := rfl
  rw [hcomp] at h3
  injection h3 with h4
  injection h4 with h5
  injection h5 with h6
  exact absurd h6 (by decide)

/-- C7 (amended): for every successfully resolved configuration whose
backend section has a "name" property, every key/value pair of the section
other than "name" and "backend" is forwarded verbatim as a backend setup
argument, and the key "backend" carries the selected backend name —
overriding a section entry literally called "backend" if one exists
(_aqua.py lines 66-70). -/
theorem c7_backend_forwarding_amended (reg : Registry) (raw : Config)
    (r : Config) (sec : Props) (nv : JValue)
    (hres : resolve reg raw = Except.ok r)
    (hsec : lookupKV r "backend" = some sec)
    (hnv : lookupKV sec "name" = some nv) :
    (∀ k v, k ≠ "name" → k ≠ "backend" → lookupKV sec k = some v →
      lookupKV (setupArgsOf r none) k = some (BVal.j v))
    ∧ lookupKV (setupArgsOf r none) "backend" = some (BVal.j nv) := by
  have hargs : setupArgsOf r none
      = setKV ((sec.filter fun kv => kv.1 != "name").map
          fun kv => (kv.1, BVal.j kv.2)) "backend" (BVal.j nv) := by
    simp [setupArgsOf, applyBackendArg, backendConfigOf, hsec, hnv]
  constructor
  · intro k v hkname hkb hlk
    rw [hargs, lookupKV_setKV_other _ _ _ _ hkb]
    rw [lookupKV_mapVal]
    rw [lookupKV_filterKey (fun s => s != "name") sec k (by simpa using hkname)]
    simp [hlk]
  · rw [hargs, lookupKV_setKV_self]

/-- Concrete instantiation of the amended C7 theorem. -/
theorem c7_backend_forwarding_amended_witness :
    lookupKV (setupArgsOf c7wres none) "shots" = some (BVal.j (JValue.int 100))
    ∧ lookupKV (setupArgsOf c7wres none) "backend"
      = some (BVal.j (JValue.str "b1")) := by
  have h := c7_backend_forwarding_amended reg0
      [ ("algorithm", [("name", JValue.str "QAOA.Variational")])
      , ("backend", [("name", JValue.str "b1"), ("shots", JValue.int 100)]) ]
      c7wres [("name", JValue.str "b1"), ("shots", JValue.int 100)]
      (JValue.str "b1") rfl rfl rfl
  exact ⟨h.1 "shots" (JValue.int 100) (by decide) (by decide) rfl, h.2⟩

/-- C10: backend-object override. When run_algorithm receives a BaseBackend
instance, the "backend" entry of the configuration handed to
setup_quantum_backend is that instance — overriding any backend name
selected in the params — while the other keys of a configured backend
section are still forwarded; and when the params name no backend at all, a
configuration holding only the instance is synthesized
(_aqua.py lines 72-76, 90-91). -/
theorem c10_backend_object_override (reg : Registry) (raw : Config)
    (r : Config) (b : Backend)
    (hres : resolve reg raw = Except.ok r) :
    lookupKV (setupArgsOf r (some b)) "backend" = some (BVal.inst b)
    ∧ (∀ sec nv, lookupKV r "backend" = some sec →
        lookupKV sec "name" = some nv →
        ∀ k v, k ≠ "name" → k ≠ "backend" → lookupKV sec k = some v →
          lookupKV (setupArgsOf r (some b)) k = some (BVal.j v))
    ∧ (backendConfigOf r = none →
        setupArgsOf r (some b) = [("backend", BVal.inst b)]) := by
  refine ⟨?_, ?_, ?_⟩
  · simp only [setupArgsOf, applyBackendArg, Option.getD_some]
    exact lookupKV_setKV_self _ _ _
  · intro sec nv hsec hnv k v hkname hkb hlk
    have hbase : backendConfigOf r
        = some (setKV ((sec.filter fun kv => kv.1 != "name").map
            fun kv => (kv.1, BVal.j kv.2)) "backend" (BVal.j nv)) := by
      simp [backendConfigOf, hsec, hnv]
    simp only [setupArgsOf, applyBackendArg, hbase, Option.getD_some]
    rw [lookupKV_setKV_other _ _ _ _ hkb]
    rw [lookupKV_setKV_other _ _ _ _ hkb]
    rw [lookupKV_mapVal]
    rw [lookupKV_filterKey (fun s => s != "name") sec k (by simpa using hkname)]
    simp [hlk]
  · intro hnone
    simp [setupArgsOf, applyBackendArg, hnone, setKV]

/-- Concrete instantiation of the backend-object override theorem. -/
theorem c10_backend_object_override_witness :
    lookupKV (setupArgsOf c7wres (some ⟨7⟩)) "backend" = some (BVal.inst ⟨7⟩)
    ∧ lookupKV (setupArgsOf c7wres (some ⟨7⟩)) "shots"
      = some (BVal.j (JValue.int 100)) := by
  have h := c10_backend_object_override reg0
      [ ("algorithm", [("name", JValue.str "QAOA.Variational")])
      , ("backend", [("name", JValue.str "b1"), ("shots", JValue.int 100)]) ]
      c7wres ⟨7⟩ rfl
  exact ⟨h.1, h.2.1 [("name", JValue.str "b1"), ("shots", JValue.int 100)]
      (JValue.str "b1") rfl rfl "shots" (JValue.int 100)
      (by decide) (by decide) rfl⟩

/-- C9: persisted input merge. For every call with a non-None input
artifact on a configuration that resolves, the persisted configuration's
"input" section is the artifact's converted property form with the
artifact's component name under "name"; the returned mapping holds the
output file name; and no execution is performed. -/
theorem c9_persisted_input_merge (reg : Registry) (conv : Props → Props)
    (params : Config) (ai : AlgoInput) (jf : String) (r : Config)
    (hres : resolve reg params = Except.ok r) :
    runAlgorithmToJson reg conv params (some ai) jf
      = Except.ok
          (setKV r "input"
            (setKV (conv ai.params) "name" (JValue.str ai.configName)),
           [("jsonfile", JValue.str jf)], false)
    ∧ lookupKV
        (setKV r "input"
          (setKV (conv ai.params) "name" (JValue.str ai.configName))) "input"
      = some (setKV (conv ai.params) "name" (JValue.str ai.configName))
    ∧ lookupKV
        (setKV (conv ai.params) "name" (JValue.str ai.configName)) "name"
      = some (JValue.str ai.configName) := by
  refine ⟨?_, lookupKV_setKV_self _ _ _, lookupKV_setKV_self _ _ _⟩
  simp [runAlgorithmToJson, hres]

/-- Concrete instantiation of the persisted-input-merge theorem. -/
theorem c9_persisted_input_merge_witness :
    runAlgorithmToJson reg0 id
        [("algorithm", [("name", JValue.str "QAOA.Variational")])]
        (some ⟨[("qubit_op", JValue.str "op")], "EnergyInput"⟩) "algorithm.json"
      = Except.ok
          ([ ("algorithm",
              [ ("name", JValue.str "QAOA.Variational")
              , ("operator_mode", JValue.str "matrix")
              , ("p", JValue.int 1)
              , ("initial_point", JValue.null)
              , ("batch_mode", JValue.bool false) ])
           , ("optimizer",
              [ ("name", JValue.str "COBYLA")
              , ("maxiter", JValue.int 1000)
              , ("disp", JValue.bool false)
              , ("tol", JValue.null) ])
           , ("input",
              [ ("qubit_op", JValue.str "op")
              , ("name", JValue.str "EnergyInput") ]) ],
           [("jsonfile", JValue.str "algorithm.json")], false) := by
  exact (c9_persisted_input_merge reg0 id
      [("algorithm", [("name", JValue.str "QAOA.Variational")])]
      ⟨[("qubit_op", JValue.str "op")], "EnergyInput"⟩ "algorithm.json"
      [ ("algorithm",
          [ ("name", JValue.str "QAOA.Variational")
          , ("operator_mode", JValue.str "matrix")
          , ("p", JValue.int 1)
          , ("initial_point", JValue.null)
          , ("batch_mode", JValue.bool false) ])
      , ("optimizer",
          [ ("name", JValue.str "COBYLA")
          , ("maxiter", JValue.int 1000)
          , ("disp", JValue.bool false)
          , ("tol", JValue.null) ]) ] rfl).1

/-- C8: availability gating without import failure. In every environment
where nlopt is absent (the probe finds no module spec, or probing raises
and the bare except swallows it), ISRES.check_pluggable_valid returns False
— it is a total function, so it never raises — and the registry therefore
excludes ISRES: it is missing from the optimizer listing and lookup by name
finds nothing, instead of surfacing an import-time failure. -/
theorem c8_availability_gating (probe : SpecProbe)
    (habs : probe ≠ SpecProbe.found) :
    check_pluggable_valid probe = false
    ∧ (registryWith probe).listNames "optimizer" = ["COBYLA"]
    ∧ (registryWith probe).lookupDesc "optimizer" "ISRES" = none := by
  cases probe with
  | found => exact absurd rfl habs
  | absent => exact ⟨rfl, rfl, rfl⟩
  | raised => exact ⟨rfl, rfl, rfl⟩

/-- Concrete instantiation of the availability-gating theorem. -/
theorem c8_availability_gating_witness :
    check_pluggable_valid SpecProbe.absent = false
    ∧ (registryWith SpecProbe.absent).listNames "optimizer" = ["COBYLA"]
    ∧ (registryWith SpecProbe.absent).lookupDesc "optimizer" "ISRES" = none :=
  c8_availability_gating SpecProbe.absent (by decide)

/-- Merging defaults whose keys are all fresh appends them in order. -/
theorem mergeFields_append_fresh : ∀ (dfs vfs : List (String × JValue)),
    (∀ kv ∈ dfs, lookupKV vfs kv.1 = none) →
    (dfs.map Prod.fst).Nodup →
    mergeFields dfs vfs = vfs ++ dfs := by
  intro dfs
  induction dfs with
  | nil => intro vfs h hnd; simp [mergeFields]
  | cons hd rest ih =>
    obtain ⟨k, dv⟩ := hd
    intro vfs h hnd
    have hk : lookupKV vfs k = none := h (k, dv) (List.mem_cons_self _ _)
    have hnd' : (rest.map Prod.fst).Nodup := (List.nodup_cons.mp (by simpa using hnd)).2
    have hkfresh : k ∉ rest.map Prod.fst := (List.nodup_cons.mp (by simpa using hnd)).1
    simp only [mergeFields, hk]
    rw [ih (vfs ++ [(k, dv)]) ?_ hnd']
    · simp
    · intro kv hkv
      have hne : k ≠ kv.1 := by
        intro he
        exact hkfresh (he ▸ List.mem_map_of_mem Prod.fst hkv)
      rw [lookupKV_append_of_eq_none _ _ _ (h kv (List.mem_cons_of_mem _ hkv))]
      simp [lookupKV, hne]

/-- A successful mergeStage acts pointwise: every section of the input
appears merged in the output, at the same key. -/
theorem mergeStage_lookup (reg : Registry) (cfg : Config) :
    ∀ (cfgM : Config) (role : String) (ps : Props),
    mergeStage reg cfg = Except.ok cfgM → lookupKV cfg role = some ps →
    ∃ ps', mergeSection reg role ps = Except.ok ps'
      ∧ lookupKV cfgM role = some ps' := by
  induction cfg with
  | nil => intro cfgM role ps h hl; simp [lookupKV] at hl
  | cons hd rest ih =>
    obtain ⟨role0, ps0⟩ := hd
    intro cfgM role ps h hl
    simp only [mergeStage] at h
    cases hms : mergeSection reg role0 ps0 with
    | error e => rw [hms] at h; cases h
    | ok ps0' =>
      rw [hms] at h
      cases hrest : mergeStage reg rest with
      | error e => rw [hrest] at h; cases h
      | ok rest' =>
        rw [hrest] at h
        simp only [Except.ok.injEq] at h
        subst h
        by_cases h0 : role0 = role
        · subst h0
          simp only [lookupKV, if_pos rfl] at hl
          obtain rfl : ps0 = ps := by injection hl
          exact ⟨ps0', hms, by simp [lookupKV]⟩
        · simp only [lookupKV, if_neg h0] at hl ⊢
          exact ih rest' role ps hrest hl

/-- C3: dependency defaulting. First part, for an arbitrary COBYLA
descriptor: whenever a raw configuration selects QAOA (whose CONFIGURATION
declares the dependent optimizer role with default name "COBYLA", qaoa.py
lines 70-75) and its optimizer section is empty or entirely absent, a
successful resolution produces an optimizer section whose name is "COBYLA"
and whose remaining properties are exactly COBYLA's own schema defaults, in
schema order. Second part: the concrete scenario-A configurations (absent
and empty optimizer section) do resolve successfully, to exactly that
optimizer section. -/
theorem c3_dependency_defaulting :
    (∀ (cd : ComponentDescriptor) (raw : Config) (aps : Props) (r : Config),
      cd.name = "COBYLA" → cd.available = true → cd.depends = [] →
      (∀ kv ∈ schemaDefaults cd.schema, kv.1 ≠ "name") →
      ((schemaDefaults cd.schema).map Prod.fst).Nodup →
      lookupKV raw "algorithm" = some aps →
      getName aps = some "QAOA.Variational" →
      (lookupKV raw "optimizer" = none ∨ lookupKV raw "optimizer" = some []) →
      resolve (regC3 cd) raw = Except.ok r →
      lookupKV r "optimizer"
        = some (("name", JValue.str "COBYLA") :: schemaDefaults cd.schema))
    ∧ resolve reg0 [("algorithm", [("name", JValue.str "QAOA.Variational")])]
        = Except.ok scenarioAResolved
    ∧ resolve reg0
        [ ("algorithm", [("name", JValue.str "QAOA.Variational")])
        , ("optimizer", []) ]
        = Except.ok scenarioAResolved
    ∧ lookupKV scenarioAResolved "optimizer"
        = some (("name", JValue.str "COBYLA")
            :: schemaDefaults cobylaDescriptor.schema) := by
  refine ⟨?_, rfl, rfl, rfl⟩
  intro cd raw aps r hname havail hdep hn hnd h1 h2 hopt hres
  have halg : algoSectionName raw = Except.ok "QAOA.Variational" := by
    simp [algoSectionName, h1, h2]
  have hfuel : selectFuel (regC3 cd) = 16 := rfl
  have hdesc : (regC3 cd).lookupDesc "optimizer" "COBYLA" = some cd := by
    simp [Registry.lookupDesc, regC3, lookupKV, List.find?, hname, havail]
  -- the synthesis stage produces an optimizer section [("name", "COBYLA")]
  have hS : ∃ cfgS, synthDeps (regC3 cd) 16
      [("optimizer", [("name", JValue.str "COBYLA")])] raw = Except.ok cfgS
      ∧ lookupKV cfgS "optimizer" = some [("name", JValue.str "COBYLA")] := by
    rcases hopt with h | h
    · refine ⟨raw ++ [("optimizer", [("name", JValue.str "COBYLA")])], ?_, ?_⟩
      · simp [synthDeps, synthStep, h, getName, lookupKV, hdesc, hdep]
      · rw [lookupKV_append_of_eq_none _ _ _ h]
        simp [lookupKV]
    · refine ⟨setKV raw "optimizer" [("name", JValue.str "COBYLA")], ?_, ?_⟩
      · simp [synthDeps, synthStep, h, hasName, getName, lookupKV, mergeFields,
          hdesc, hdep]
      · exact lookupKV_setKV_self _ _ _
  obtain ⟨cfgS, hSynth, hSopt⟩ := hS
  -- unfold the pipeline in the success hypothesis
  unfold resolve at hres
  rw [halg] at hres
  have hqd : (regC3 cd).lookupDesc "algorithm" "QAOA.Variational"
      = some qaoaDescriptor := rfl
  have hwl : (qaoaDescriptor.depends.map
      fun rr => (rr, (lookupKV qaoaDescriptor.defaults rr).getD []))
      = [("optimizer", [("name", JValue.str "COBYLA")])] := rfl
  simp only [hqd, hfuel, hwl, hSynth] at hres
  cases hM : mergeStage (regC3 cd) cfgS with
  | error e => simp [hM] at hres
  | ok cfgM =>
    cases hV : validateStage (regC3 cd) cfgM with
    | error e => simp [hM, hV] at hres
    | ok _ =>
      simp only [hM, hV, Except.ok.injEq] at hres
      subst hres
      obtain ⟨ps', hps1, hps2⟩ :=
        mergeStage_lookup (regC3 cd) cfgS cfgM "optimizer"
          [("name", JValue.str "COBYLA")] hM hSopt
      have hfresh : ∀ kv ∈ schemaDefaults cd.schema,
          lookupKV [("name", JValue.str "COBYLA")] kv.1 = none := by
        intro kv hkv
        have hne : "name" ≠ kv.1 := fun he => hn kv hkv he.symm
        simp [lookupKV, hne]
      have hstep : sectionSchema (regC3 cd) "optimizer"
          [("name", JValue.str "COBYLA")]
          = (match (regC3 cd).lookupDesc "optimizer" "COBYLA" with
             | none => Except.error (ResolveError.componentNotFound "optimizer" "COBYLA")
             | some d => Except.ok d.schema) := rfl
      have hmsec : mergeSection (regC3 cd) "optimizer"
          [("name", JValue.str "COBYLA")]
          = Except.ok (("name", JValue.str "COBYLA") :: schemaDefaults cd.schema) := by
        simp only [mergeSection, hstep, hdesc]
        rw [mergeFields_append_fresh _ _ hfresh hnd]
        rfl
      rw [hps1] at hmsec
      obtain rfl : ps' = ("name", JValue.str "COBYLA") :: schemaDefaults cd.schema := by
        injection hmsec
      exact hps2

/-- Concrete instantiation of the dependency-defaulting theorem. -/
theorem c3_dependency_defaulting_witness :
    lookupKV scenarioAResolved "optimizer"
      = some (("name", JValue.str "COBYLA")
          :: schemaDefaults cobylaDescriptor.schema) :=
  c3_dependency_defaulting.1 cobylaDescriptor
    [("algorithm", [("name", JValue.str "QAOA.Variational")])]
    [("name", JValue.str "QAOA.Variational")] scenarioAResolved
    rfl rfl rfl (by decide) (by decide) rfl rfl (Or.inl rfl) rfl

theorem jsizeFs_mem {fs : List (String × JValue)} {kv : String × JValue}
    (h : kv ∈ fs) : jsizeV kv.2 ≤ jsizeFs fs := by
  induction fs with
  | nil => cases h
  | cons hd tl ih =>
    rcases List.mem_cons.mp h with h | h
    · subst h
      simp only [jsizeFs]
      omega
    · have := ih h
      simp only [jsizeFs]
      omega

theorem nodupJFs_mem {fs : List (String × JValue)} {kv : String × JValue}
    (h : kv ∈ fs) (hfs : nodupJFs fs = true) : nodupJ kv.2 = true := by
  induction fs with
  | nil => cases h
  | cons hd tl ih =>
    simp only [nodupJFs, Bool.and_eq_true] at hfs
    rcases List.mem_cons.mp h with h | h
    · subst h
      exact hfs.1
    · exact ih h hfs.2

theorem nodupJ_obj_parts {fs : List (String × JValue)}
    (h : nodupJ (JValue.obj fs) = true) :
    (fs.map Prod.fst).Nodup ∧ nodupJFs fs = true := by
  simp only [nodupJ, Bool.and_eq_true, decide_eq_true_eq] at h
  exact h

/-- Merging a default into a string value never changes it. -/
theorem mergeValue_str (d : JValue) (s : String) :
    mergeValue d (JValue.str s) = JValue.str s := by
  cases d <;> rfl

/-- Merging a default into itself-as-value, outside the object/object
case, never changes it; captured generally below. Here: merging preserves
any string binding of the value side. -/
theorem lookup_mergeFields_str (dfs : List (String × JValue)) :
    ∀ (vfs : List (String × JValue)) (k : String) (s : String),
    lookupKV vfs k = some (JValue.str s) →
    lookupKV (mergeFields dfs vfs) k = some (JValue.str s) := by
  induction dfs with
  | nil => intro vfs k s h; simpa [mergeFields] using h
  | cons hd rest ih =>
    obtain ⟨k0, dv⟩ := hd
    intro vfs k s h
    simp only [mergeFields]
    cases hl : lookupKV vfs k0 with
    | none =>
      exact ih _ k s (lookupKV_append_of_eq_some _ _ _ _ h)
    | some v =>
      by_cases hk : k0 = k
      · subst hk
        rw [hl] at h
        obtain rfl : v = JValue.str s := by injection h
        refine ih _ k0 s ?_
        rw [mergeValue_str, setKV_lookup_self _ _ _ hl]
        exact hl
      · refine ih _ k s ?_
        rw [lookupKV_setKV_other _ _ _ _ fun he => hk he.symm]
        exact h

/-- Merging defaults that the mapping already absorbs is a no-op. -/
theorem mergeFields_fixed : ∀ (dfs u : List (String × JValue)),
    (∀ kv ∈ dfs, ∃ w, lookupKV u kv.1 = some w ∧ mergeValue kv.2 w = w) →
    mergeFields dfs u = u := by
  intro dfs
  induction dfs with
  | nil => intro u h; rfl
  | cons hd rest ih =>
    obtain ⟨k, dv⟩ := hd
    intro u h
    obtain ⟨w, hw, hfix⟩ := h (k, dv) (List.mem_cons_self _ _)
    simp only [mergeFields, hw, hfix, setKV_lookup_self _ _ _ hw]
    exact ih u fun kv hkv => h kv (List.mem_cons_of_mem _ hkv)

/-- Keys foreign to the defaults are untouched by merging. -/
theorem lookup_mergeFields_fresh : ∀ (dfs vfs : List (String × JValue))
    (k : String), k ∉ dfs.map Prod.fst →
    lookupKV (mergeFields dfs vfs) k = lookupKV vfs k := by
  intro dfs
  induction dfs with
  | nil => intro vfs k h; rfl
  | cons hd rest ih =>
    obtain ⟨k0, dv⟩ := hd
    intro vfs k h
    have hk : k ≠ k0 := by
      intro he
      exact h (by simp [he])
    have hrest : k ∉ rest.map Prod.fst := by
      intro hm
      exact h (by simp [hm])
    simp only [mergeFields]
    cases hl : lookupKV vfs k0 with
    | none =>
      rw [ih _ k hrest]
      cases hvk : lookupKV vfs k with
      | none =>
        rw [lookupKV_append_of_eq_none _ _ _ hvk]
        simp [lookupKV, Ne.symm hk]
      | some v => exact lookupKV_append_of_eq_some _ _ _ _ hvk
    | some v =>
      rw [ih _ k hrest]
      exact lookupKV_setKV_other _ _ _ _ hk

/-- After merging, every default key is bound, to its own default when it
was absent or to a merge of the default into the present value. -/
theorem lookup_mergeFields_mem : ∀ (dfs vfs : List (String × JValue))
    (k : String) (dv : JValue), (dfs.map Prod.fst).Nodup → (k, dv) ∈ dfs →
    ∃ w, lookupKV (mergeFields dfs vfs) k = some w
      ∧ (w = dv ∨ ∃ v, w = mergeValue dv v) := by
  intro dfs
  induction dfs with
  | nil => intro vfs k dv _ h; cases h
  | cons hd rest ih =>
    obtain ⟨k0, dv0⟩ := hd
    intro vfs k dv hnd hm
    have hnd' : (rest.map Prod.fst).Nodup := (List.nodup_cons.mp (by simpa using hnd)).2
    have hk0 : k0 ∉ rest.map Prod.fst := (List.nodup_cons.mp (by simpa using hnd)).1
    rcases List.mem_cons.mp hm with he | hm
    · have hk : k = k0 := congrArg Prod.fst he
      have hdv : dv = dv0 := congrArg Prod.snd he
      subst hk
      subst hdv
      simp only [mergeFields]
      cases hl : lookupKV vfs k with
      | none =>
        refine ⟨dv, ?_, Or.inl rfl⟩
        rw [lookup_mergeFields_fresh _ _ _ hk0]
        rw [lookupKV_append_of_eq_none _ _ _ hl]
        simp [lookupKV]
      | some v =>
        refine ⟨mergeValue dv v, ?_, Or.inr ⟨v, rfl⟩⟩
        rw [lookup_mergeFields_fresh _ _ _ hk0]
        exact lookupKV_setKV_self _ _ _
    · simp only [mergeFields]
      cases hl : lookupKV vfs k0 with
      | none => exact ih _ k dv hnd' hm
      | some v => exact ih _ k dv hnd' hm

/-- In a duplicate-key-free association list, membership determines
lookup. -/
theorem lookup_eq_of_mem_nodup {α : Type} :
    ∀ (l : List (String × α)) (k : String) (v : α),
    (l.map Prod.fst).Nodup → (k, v) ∈ l → lookupKV l k = some v := by
  intro l
  induction l with
  | nil => intro k v _ h; cases h
  | cons hd tl ih =>
    obtain ⟨k0, v0⟩ := hd
    intro k v hnd hm
    have hnd' : (tl.map Prod.fst).Nodup := (List.nodup_cons.mp (by simpa using hnd)).2
    have hk0 : k0 ∉ tl.map Prod.fst := (List.nodup_cons.mp (by simpa using hnd)).1
    rcases List.mem_cons.mp hm with he | hm
    · have hk : k = k0 := congrArg Prod.fst he
      have hv : v = v0 := congrArg Prod.snd he
      subst hk
      subst hv
      simp [lookupKV]
    · have hk : k0 ≠ k := by
        intro he
        subst he
        exact hk0 (List.mem_map_of_mem Prod.fst hm)
      simp [lookupKV, hk, ih k v hnd' hm]

/-- Core fixed-point fact: re-merging a duplicate-key-free default into an
already-merged value is the identity, and a default absorbs itself. -/
theorem mergeValue_idem : ∀ (n : Nat) (d : JValue), jsizeV d ≤ n →
    nodupJ d = true →
    (∀ v, mergeValue d (mergeValue d v) = mergeValue d v) ∧ mergeValue d d = d := by
  intro n
  induction n using Nat.strong_induction_on with
  | _ n ih =>
    intro d hsz hnd
    cases d with
    | obj dfs =>
      obtain ⟨hkeys, hvals⟩ := nodupJ_obj_parts hnd
      have habsorb : ∀ kv ∈ dfs, ∀ w,
          (w = kv.2 ∨ ∃ v, w = mergeValue kv.2 v) → mergeValue kv.2 w = w := by
        intro kv hkv w hw
        have hszkv : jsizeV kv.2 < n := by
          have h1 := jsizeFs_mem hkv
          have h2 : jsizeV (JValue.obj dfs) = 1 + jsizeFs dfs := by
            simp [jsizeV]
          omega
        have hidem := ih (jsizeV kv.2) hszkv kv.2 le_rfl (nodupJFs_mem hkv hvals)
        rcases hw with rfl | ⟨v, rfl⟩
        · exact hidem.2
        · exact hidem.1 v
      constructor
      · intro v
        cases v with
        | obj vfs =>
          show JValue.obj (mergeFields dfs (mergeFields dfs vfs))
            = JValue.obj (mergeFields dfs vfs)
          congr 1
          refine mergeFields_fixed _ _ fun kv hkv => ?_
          obtain ⟨w, hw, hcase⟩ :=
            lookup_mergeFields_mem dfs vfs kv.1 kv.2 hkeys (by simpa using hkv)
          exact ⟨w, hw, habsorb kv hkv w hcase⟩
        | null => rfl
        | bool b => rfl
        | int m => rfl
        | str s => rfl
        | arr xs => rfl
      · show JValue.obj (mergeFields dfs dfs) = JValue.obj dfs
        congr 1
        refine mergeFields_fixed _ _ fun kv hkv => ?_
        refine ⟨kv.2, lookup_eq_of_mem_nodup dfs kv.1 kv.2 hkeys (by simpa using hkv),
          habsorb kv hkv kv.2 (Or.inl rfl)⟩
    | null => exact ⟨fun v => by cases v <;> rfl, rfl⟩
    | bool b => exact ⟨fun v => by cases v <;> rfl, rfl⟩
    | int m => exact ⟨fun v => by cases v <;> rfl, rfl⟩
    | str s => exact ⟨fun v => by cases v <;> rfl, rfl⟩
    | arr xs => exact ⟨fun v => by cases v <;> rfl, rfl⟩

/-- Merging the same duplicate-key-free defaults twice equals merging them
once. -/
theorem mergeFields_idem (dfs : List (String × JValue))
    (hnd : (dfs.map Prod.fst).Nodup)
    (hvals : ∀ kv ∈ dfs, nodupJ kv.2 = true)
    (vfs : List (String × JValue)) :
    mergeFields dfs (mergeFields dfs vfs) = mergeFields dfs vfs := by
  refine mergeFields_fixed _ _ fun kv hkv => ?_
  obtain ⟨w, hw, hcase⟩ :=
    lookup_mergeFields_mem dfs vfs kv.1 kv.2 hnd (by simpa using hkv)
  refine ⟨w, hw, ?_⟩
  have hidem := mergeValue_idem (jsizeV kv.2) kv.2 le_rfl (hvals kv hkv)
  rcases hcase with rfl | ⟨v, rfl⟩
  · exact hidem.2
  · exact hidem.1 v

theorem getName_eq_str {ps : Props} {n : String} (h : getName ps = some n) :
    lookupKV ps "name" = some (JValue.str n) := by
  unfold getName at h
  cases hl : lookupKV ps "name" with
  | none => rw [hl] at h; cases h
  | some v =>
    rw [hl] at h
    cases v with
    | str s => obtain rfl : s = n := by injection h
               rfl
    | null => cases h
    | bool b => cases h
    | int m => cases h
    | arr xs => cases h
    | obj fs => cases h

theorem getName_of_lookup {ps : Props} {n : String}
    (h : lookupKV ps "name" = some (JValue.str n)) : getName ps = some n := by
  unfold getName
  rw [h]

theorem getName_some_hasName {ps : Props} {n : String}
    (h : getName ps = some n) : hasName ps = true := by
  unfold hasName
  rw [getName_eq_str h]
  rfl

theorem lookupKV_mem {α : Type} :
    ∀ (l : List (String × α)) (k : String) (v : α),
    lookupKV l k = some v → (k, v) ∈ l := by
  intro l
  induction l with
  | nil => intro k v h; cases h
  | cons hd tl ih =>
    obtain ⟨k0, v0⟩ := hd
    intro k v h
    by_cases hk : k0 = k
    · subst hk
      simp only [lookupKV, if_pos rfl] at h
      obtain rfl : v0 = v := by injection h
      exact List.mem_cons_self _ _
    · simp only [lookupKV, if_neg hk] at h
      exact List.mem_cons_of_mem _ (ih k v h)

/-- The step of the synthesis loop binds the role it treats to the section
it determined. -/
theorem synthStep_self (cfg : Config) (role : String) (dprops : Props) :
    lookupKV (synthStep cfg role dprops).2 role
      = some (synthStep cfg role dprops).1 := by
  unfold synthStep
  cases hl : lookupKV cfg role with
  | none =>
    simp only []
    rw [lookupKV_append_of_eq_none _ _ _ hl]
    simp [lookupKV]
  | some s =>
    by_cases hn : hasName s
    · simp only [hn, if_pos rfl]
      rw [setKV_lookup_self _ _ _ hl]
      exact hl
    · simp only [hn]
      simp only [Bool.false_eq_true, if_false]
      exact lookupKV_setKV_self _ _ _

/-- The synthesis step never changes a section that already carries a
name. -/
theorem synthStep_preserves (cfg : Config) (role : String) (dprops : Props)
    (role' : String) (s' : Props) (n' : String)
    (hl : lookupKV cfg role' = some s') (hn : getName s' = some n') :
    lookupKV (synthStep cfg role dprops).2 role' = some s' := by
  unfold synthStep
  cases hsec : lookupKV cfg role with
  | none =>
    simp only []
    exact lookupKV_append_of_eq_some _ _ _ _ hl
  | some s =>
    by_cases hname : hasName s
    · simp only [hname, if_pos rfl]
      rw [setKV_lookup_self _ _ _ hsec]
      exact hl
    · simp only [hname, Bool.false_eq_true, if_false]
      by_cases hr : role = role'
      · subst hr
        rw [hsec] at hl
        obtain rfl : s = s' := by injection hl
        exact absurd (getName_some_hasName hn) hname
      · rw [lookupKV_setKV_other _ _ _ _ fun he => hr he.symm]
        exact hl

/-- Dependency synthesis never changes a named section. -/
theorem synthDeps_preserves_named (reg : Registry) :
    ∀ (fuel : Nat) (wl : List (String × Props)) (cfg cfg' : Config),
    synthDeps reg fuel wl cfg = Except.ok cfg' →
    ∀ (role n : String) (s : Props), lookupKV cfg role = some s →
    getName s = some n → lookupKV cfg' role = some s := by
  intro fuel
  induction fuel with
  | zero =>
    intro wl cfg cfg' h role n s hl hn
    cases wl with
    | nil =>
      obtain rfl : cfg = cfg' := by simpa [synthDeps] using h
      exact hl
    | cons hd tl => simp [synthDeps] at h
  | succ fuel ih =>
    intro wl cfg cfg' h role n s hl hn
    cases wl with
    | nil =>
      obtain rfl : cfg = cfg' := by simpa [synthDeps] using h
      exact hl
    | cons hd tl =>
      obtain ⟨role0, dprops⟩ := hd
      simp only [synthDeps] at h
      cases hgn : getName (synthStep cfg role0 dprops).1 with
      | none => simp [hgn] at h
      | some n0 =>
        simp only [hgn] at h
        cases hld : reg.lookupDesc role0 n0 with
        | none => simp [hld] at h
        | some d =>
          simp only [hld] at h
          exact ih _ _ _ h role n s
            (synthStep_preserves cfg role0 dprops role s n hl hn) hn

/-- Re-running dependency synthesis over a configuration that already
carries every name the first run settled is a no-op. -/
theorem synthDeps_fix (reg : Registry) :
    ∀ (fuel : Nat) (wl : List (String × Props)) (cfg cfg' cfg₂ : Config),
    synthDeps reg fuel wl cfg = Except.ok cfg' →
    (∀ (role n : String) (s : Props), lookupKV cfg' role = some s →
      getName s = some n →
      ∃ s₂, lookupKV cfg₂ role = some s₂ ∧ getName s₂ = some n) →
    synthDeps reg fuel wl cfg₂ = Except.ok cfg₂ := by
  intro fuel
  induction fuel with
  | zero =>
    intro wl cfg cfg' cfg₂ h hagree
    cases wl with
    | nil => rfl
    | cons hd tl => simp [synthDeps] at h
  | succ fuel ih =>
    intro wl cfg cfg' cfg₂ h hagree
    cases wl with
    | nil => rfl
    | cons hd tl =>
      obtain ⟨role0, dprops⟩ := hd
      simp only [synthDeps] at h ⊢
      cases hgn : getName (synthStep cfg role0 dprops).1 with
      | none => simp [hgn] at h
      | some n0 =>
        simp only [hgn] at h
        cases hld : reg.lookupDesc role0 n0 with
        | none => simp [hld] at h
        | some d =>
          simp only [hld] at h
          have hnamed' : lookupKV cfg' role0 = some (synthStep cfg role0 dprops).1 :=
            synthDeps_preserves_named reg fuel _ _ _ h role0 n0 _
              (synthStep_self cfg role0 dprops) hgn
          obtain ⟨s₂, hs₂, hgn₂⟩ := hagree role0 n0 _ hnamed' hgn
          have hname₂ : hasName s₂ = true := getName_some_hasName hgn₂
          have hstep₂1 : (synthStep cfg₂ role0 dprops).1 = s₂ := by
            simp [synthStep, hs₂, hname₂]
          have hstep₂2 : (synthStep cfg₂ role0 dprops).2 = cfg₂ := by
            simp [synthStep, hs₂, hname₂, setKV_lookup_self _ _ _ hs₂]
          simp only [hstep₂1, hgn₂, hld, hstep₂2]
          exact ih _ _ _ _ h hagree

theorem mergeSection_eq {reg : Registry} {role : String} {ps ps' : Props}
    (h : mergeSection reg role ps = Except.ok ps') :
    ∃ sch, sectionSchema reg role ps = Except.ok sch
      ∧ ps' = mergeFields (schemaDefaults sch) ps := by
  unfold mergeSection at h
  cases hs : sectionSchema reg role ps with
  | error e => rw [hs] at h; cases h
  | ok sch =>
    rw [hs] at h
    refine ⟨sch, rfl, ?_⟩
    injection h
    simp_all

/-- A successful merge stage preserves the name of every named section. -/
theorem mergeStage_preserves_named (reg : Registry) :
    ∀ (cfg cfgM : Config), mergeStage reg cfg = Except.ok cfgM →
    ∀ (role n : String) (s : Props), lookupKV cfg role = some s →
    getName s = some n →
    ∃ s', lookupKV cfgM role = some s' ∧ getName s' = some n := by
  intro cfg
  induction cfg with
  | nil => intro cfgM h role n s hl hn; cases hl
  | cons hd rest ih =>
    obtain ⟨role0, ps0⟩ := hd
    intro cfgM h role n s hl hn
    simp only [mergeStage] at h
    cases hms : mergeSection reg role0 ps0 with
    | error e => rw [hms] at h; cases h
    | ok ps0' =>
      rw [hms] at h
      cases hrest : mergeStage reg rest with
      | error e => rw [hrest] at h; cases h
      | ok rest' =>
        rw [hrest] at h
        simp only [Except.ok.injEq] at h
        subst h
        by_cases h0 : role0 = role
        · subst h0
          simp only [lookupKV, if_pos rfl] at hl ⊢
          obtain rfl : ps0 = s := by injection hl
          obtain ⟨sch, _, rfl⟩ := mergeSection_eq hms
          refine ⟨_, rfl, ?_⟩
          exact getName_of_lookup
            (lookup_mergeFields_str _ _ _ _ (getName_eq_str hn))
        · simp only [lookupKV, if_neg h0] at hl ⊢
          exact ih rest' hrest role n s hl hn

theorem sectionSchema_wf {reg : Registry} {role : String} {ps : Props}
    {sch : Schema} (hwf : wfReg reg)
    (h : sectionSchema reg role ps = Except.ok sch) : wfSchemaProp sch := by
  unfold sectionSchema at h
  cases hp : lookupKV reg.plain role with
  | some sch0 =>
    simp only [hp] at h
    obtain rfl : sch0 = sch := by injection h
    exact hwf.2 _ (lookupKV_mem _ _ _ hp)
  | none =>
    simp only [hp] at h
    cases hpl : lookupKV reg.pluggable role with
    | none => simp [hpl] at h
    | some ds =>
      simp only [hpl] at h
      cases hgn : getName ps with
      | none => simp [hgn] at h
      | some n =>
        simp only [hgn] at h
        cases hld : reg.lookupDesc role n with
        | none => simp [hld] at h
        | some d =>
          simp only [hld] at h
          obtain rfl : d.schema = sch := by injection h
          unfold Registry.lookupDesc at hld
          rw [hpl] at hld
          exact hwf.1 _ (lookupKV_mem _ _ _ hpl) d
            (List.mem_of_find?_eq_some hld)

/-- The governing schema of a section is unchanged by any update that
preserves its selected name. -/
theorem sectionSchema_stable {reg : Registry} {role : String} {ps ps' : Props}
    {sch : Schema}
    (hn : ∀ n, getName ps = some n → getName ps' = some n)
    (h : sectionSchema reg role ps = Except.ok sch) :
    sectionSchema reg role ps' = Except.ok sch := by
  unfold sectionSchema at h ⊢
  cases hp : lookupKV reg.plain role with
  | some sch0 => simp only [hp] at h ⊢; exact h
  | none =>
    simp only [hp] at h ⊢
    cases hpl : lookupKV reg.pluggable role with
    | none => simp [hpl] at h
    | some ds =>
      simp only [hpl] at h ⊢
      cases hgn : getName ps with
      | none => simp [hgn] at h
      | some n =>
        simp only [hgn] at h
        simp only [hn n hgn]
        exact h

/-- Merging a section that is already merged is a no-op. -/
theorem mergeSection_idem {reg : Registry} {role : String} {ps ps' : Props}
    (hwf : wfReg reg) (h : mergeSection reg role ps = Except.ok ps') :
    mergeSection reg role ps' = Except.ok ps' := by
  obtain ⟨sch, hsch, rfl⟩ := mergeSection_eq h
  have hwfs := sectionSchema_wf hwf hsch
  have hstable : sectionSchema reg role (mergeFields (schemaDefaults sch) ps)
      = Except.ok sch := by
    refine sectionSchema_stable ?_ hsch
    intro n hn
    exact getName_of_lookup
      (lookup_mergeFields_str _ _ _ _ (getName_eq_str hn))
  unfold mergeSection
  simp only [hstable]
  rw [mergeFields_idem _ hwfs.1 hwfs.2]

/-- Re-running the merge stage over its own output is a no-op. -/
theorem mergeStage_idem (reg : Registry) (hwf : wfReg reg) :
    ∀ (cfg cfgM : Config), mergeStage reg cfg = Except.ok cfgM →
    mergeStage reg cfgM = Except.ok cfgM := by
  intro cfg
  induction cfg with
  | nil =>
    intro cfgM h
    obtain rfl : ([] : Config) = cfgM := by simpa [mergeStage] using h
    rfl
  | cons hd rest ih =>
    obtain ⟨role0, ps0⟩ := hd
    intro cfgM h
    simp only [mergeStage] at h
    cases hms : mergeSection reg role0 ps0 with
    | error e => rw [hms] at h; cases h
    | ok ps0' =>
      rw [hms] at h
      cases hrest : mergeStage reg rest with
      | error e => rw [hrest] at h; cases h
      | ok rest' =>
        rw [hrest] at h
        simp only [Except.ok.injEq] at h
        subst h
        simp only [mergeStage, mergeSection_idem hwf hms, ih rest' hrest]

theorem algoSectionName_ok {cfg : Config} {an : String}
    (h : algoSectionName cfg = Except.ok an) :
    ∃ ps, lookupKV cfg "algorithm" = some ps ∧ getName ps = some an := by
  unfold algoSectionName at h
  cases hl : lookupKV cfg "algorithm" with
  | none => simp [hl] at h
  | some ps =>
    simp only [hl] at h
    cases hgn : getName ps with
    | none => simp [hgn] at h
    | some n =>
      simp only [hgn] at h
      obtain rfl : n = an := by injection h
      exact ⟨ps, rfl, hgn⟩

/-- C1: configuration resolution is idempotent. For every well-formed
registry and every raw configuration that resolves successfully, running
resolution (parse + validate_merge_defaults, as run_algorithm does at
_aqua.py lines 54-56) on the resolved output is a no-op: it succeeds and
returns its input unchanged. Since the resolved configuration is returned
as the identical value, any deterministic serialization of it is
byte-identical. -/
theorem c1_resolution_idempotent (reg : Registry) (raw r : Config)
    (hwf : wfReg reg) (h : resolve reg raw = Except.ok r) :
    resolve reg r = Except.ok r := by
  unfold resolve at h
  cases han : algoSectionName raw with
  | error e => simp [han] at h
  | ok an =>
    simp only [han] at h
    cases hld : reg.lookupDesc "algorithm" an with
    | none => simp [hld] at h
    | some d₀ =>
      simp only [hld] at h
      cases hS : synthDeps reg (selectFuel reg)
          (d₀.depends.map fun rr => (rr, (lookupKV d₀.defaults rr).getD [])) raw with
      | error e => simp [hS] at h
      | ok cfgS =>
        simp only [hS] at h
        cases hM : mergeStage reg cfgS with
        | error e => simp [hM] at h
        | ok cfgM =>
          simp only [hM] at h
          cases hV : validateStage reg cfgM with
          | error e => simp [hV] at h
          | ok u =>
            simp only [hV, Except.ok.injEq] at h
            subst h
            -- the algorithm name survives the pipeline
            obtain ⟨aps, hraw, hgn⟩ := algoSectionName_ok han
            have hSalg : lookupKV cfgS "algorithm" = some aps :=
              synthDeps_preserves_named reg _ _ _ _ hS "algorithm" an aps hraw hgn
            obtain ⟨aps', hralg, hgn'⟩ :=
              mergeStage_preserves_named reg cfgS cfgM hM "algorithm" an aps hSalg hgn
            have han2 : algoSectionName cfgM = Except.ok an := by
              unfold algoSectionName
              simp only [hralg, hgn']
            -- re-running selection is a no-op
            have hS2 : synthDeps reg (selectFuel reg)
                (d₀.depends.map fun rr => (rr, (lookupKV d₀.defaults rr).getD []))
                cfgM = Except.ok cfgM := by
              refine synthDeps_fix reg _ _ _ _ _ hS ?_
              intro role n s hl hn
              exact mergeStage_preserves_named reg cfgS cfgM hM role n s hl hn
            have hM2 : mergeStage reg cfgM = Except.ok cfgM :=
              mergeStage_idem reg hwf cfgS cfgM hM
            unfold resolve
            simp only [han2, hld, hS2, hM2, hV]

/-- Concrete instantiation of the idempotence theorem: resolving an
already-resolved configuration returns it unchanged. -/
theorem c1_resolution_idempotent_witness :
    resolve reg0 scenarioAResolved = Except.ok scenarioAResolved :=
  c1_resolution_idempotent reg0
    [("algorithm", [("name", JValue.str "QAOA.Variational")])]
    scenarioAResolved (by unfold wfReg wfSchemaProp; decide) rfl

theorem toNat_ofNat_valid {n : Nat} (h : Nat.isValidChar n) :
    (Char.ofNat n).toNat = n := by
  simp only [Char.ofNat, h, dif_pos, Char.ofNatAux, Char.toNat, UInt32.toNat,
    BitVec.toNat_ofNatLt]

theorem char_valid_cases (c : Char) :
    c.toNat < 55296 ∨ 57343 < c.toNat ∧ c.toNat < 1114112 := c.valid

theorem toNat_ofNat_small {n : Nat} (h : n < 55296) : (Char.ofNat n).toNat = n :=
  toNat_ofNat_valid (Or.inl h)

theorem hexVal_hexDig {x : Nat} (h : x < 16) : hexVal (hexDig x) = some x := by
  interval_cases x <;> decide

theorem isDig_toNat {c : Char} (h : isDig c = true) :
    48 ≤ c.toNat ∧ c.toNat ≤ 57 := by
  simpa [isDig, Bool.and_eq_true, decide_eq_true_eq] using h

theorem natDigits_all_dig (n : Nat) : ∀ c ∈ natDigits n, isDig c = true := by
  induction n using Nat.strong_induction_on with
  | _ n ih =>
    intro c hc
    unfold natDigits at hc
    by_cases h : n < 10
    · rw [dif_pos h] at hc
      rcases List.mem_singleton.mp hc with rfl
      have hv : (Char.ofNat (48 + n)).toNat = 48 + n := toNat_ofNat_small (by omega)
      simp only [isDig, hv, Bool.and_eq_true, decide_eq_true_eq]
      omega
    · rw [dif_neg h] at hc
      rcases List.mem_append.mp hc with hc | hc
      · exact ih (n / 10) (by omega) c hc
      · rcases List.mem_singleton.mp hc with rfl
        have hv : (Char.ofNat (48 + n % 10)).toNat = 48 + n % 10 :=
          toNat_ofNat_small (by omega)
        simp only [isDig, hv, Bool.and_eq_true, decide_eq_true_eq]
        omega

theorem natDigits_ne_nil (n : Nat) : natDigits n ≠ [] := by
  induction n using Nat.strong_induction_on with
  | _ n ih =>
    unfold natDigits
    by_cases h : n < 10
    · simp [h]
    · rw [dif_neg h]
      intro he
      exact ih (n / 10) (by omega) (List.append_eq_nil.mp he).1

theorem digitsVal_append (xs ys : List Char) :
    ∀ acc, digitsVal acc (xs ++ ys) = digitsVal (digitsVal acc xs) ys := by
  induction xs with
  | nil => intro acc; rfl
  | cons c cs ih =>
    intro acc
    rw [List.cons_append]
    show digitsVal (acc * 10 + (c.toNat - 48)) (cs ++ ys) = _
    rw [ih]
    rfl

theorem digitsVal_natDigits (n : Nat) :
    ∀ acc, digitsVal acc (natDigits n) = acc * tenPow n + n := by
  induction n using Nat.strong_induction_on with
  | _ n ih =>
    intro acc
    by_cases h : n < 10
    · unfold natDigits tenPow
      rw [dif_pos h, dif_pos h]
      show acc * 10 + ((Char.ofNat (48 + n)).toNat - 48) = acc * 10 + n
      rw [toNat_ofNat_small (by omega)]
      omega
    · unfold natDigits tenPow
      rw [dif_neg h, dif_neg h]
      rw [digitsVal_append]
      rw [ih (n / 10) (by omega) acc]
      show (acc * tenPow (n / 10) + n / 10) * 10
          + ((Char.ofNat (48 + n % 10)).toNat - 48)
          = acc * (tenPow (n / 10) * 10) + n
      rw [toNat_ofNat_small (by omega)]
      have hsub : 48 + n % 10 - 48 = n % 10 := by omega
      rw [hsub]
      have hdm : n / 10 * 10 + n % 10 = n := by omega
      calc (acc * tenPow (n / 10) + n / 10) * 10 + n % 10
          = acc * (tenPow (n / 10) * 10) + (n / 10 * 10 + n % 10) := by ring
        _ = acc * (tenPow (n / 10) * 10) + n := by rw [hdm]

theorem munchDigits_append (ds : List Char) :
    ∀ (rest : List Char) (acc : Nat), (∀ c ∈ ds, isDig c = true) →
    goodRest rest = true →
    munchDigits (ds ++ rest) acc = (digitsVal acc ds, rest) := by
  induction ds with
  | nil =>
    intro rest acc _ hrest
    cases rest with
    | nil => rfl
    | cons c cs =>
      have hcf : isDig c = false := by
        simpa [goodRest, Bool.not_eq_true'] using hrest
      have hstep : munchDigits (c :: cs) acc
          = if isDig c = true then munchDigits cs (acc * 10 + (c.toNat - 48))
            else (acc, c :: cs) := rfl
      rw [List.nil_append, hstep, if_neg (by simp [hcf])]
      rfl
  | cons d ds ih =>
    intro rest acc hds hrest
    have hd : isDig d = true := hds d (List.mem_cons_self _ _)
    rw [List.cons_append]
    have hstep : munchDigits (d :: (ds ++ rest)) acc
        = if isDig d = true then munchDigits (ds ++ rest) (acc * 10 + (d.toNat - 48))
          else (acc, d :: (ds ++ rest)) := rfl
    rw [hstep, if_pos hd]
    exact ih rest _ (fun c hc => hds c (List.mem_cons_of_mem _ hc)) hrest

theorem munch_natDigits (n : Nat) (rest : List Char)
    (hrest : goodRest rest = true) :
    munchDigits (natDigits n ++ rest) 0 = (n, rest) := by
  rw [munchDigits_append _ _ _ (natDigits_all_dig n) hrest]
  rw [digitsVal_natDigits]
  simp

theorem skipWs_not {c : Char} (cs : List Char) (h : isWs c = false) :
    skipWs (c :: cs) = c :: cs := by
  simp [skipWs, h]

theorem skipWs_allWs (pre : List Char) (cs : List Char)
    (h : ∀ c ∈ pre, isWs c = true) : skipWs (pre ++ cs) = skipWs cs := by
  induction pre with
  | nil => rfl
  | cons c p ih =>
    simp only [List.cons_append, skipWs, h c (List.mem_cons_self _ _), if_pos]
    exact ih fun c hc => h c (List.mem_cons_of_mem _ hc)

theorem skipWs_indent (l : Nat) (cs : List Char) :
    skipWs (mkIndent l ++ cs) = skipWs cs := by
  refine skipWs_allWs _ _ fun c hc => ?_
  rcases List.eq_of_mem_replicate hc with rfl
  rfl

theorem decodeHex4_hex4 (n : Nat) (h : n < 65536) :
    decodeHex4 (hexDig (n / 4096 % 16)) (hexDig (n / 256 % 16))
      (hexDig (n / 16 % 16)) (hexDig (n % 16)) = some n := by
  unfold decodeHex4
  rw [hexVal_hexDig (by omega), hexVal_hexDig (by omega),
    hexVal_hexDig (by omega), hexVal_hexDig (by omega)]
  exact congrArg some (by omega)

theorem parseUEsc_scalar (a b c d : Char) (m : Nat)
    (hd : decodeHex4 a b c d = some m)
    (hs1 : ¬(55296 ≤ m ∧ m < 56320)) (hs2 : ¬(56320 ≤ m ∧ m < 57344))
    (r : List Char) :
    parseUEsc a b c d r = some (Char.ofNat m, r) := by
  unfold parseUEsc
  rw [hd]
  simp only []
  rw [if_neg hs1, if_neg hs2]

theorem parseUEsc_pair (a b c d g1 g2 g3 g4 : Char) (hi lo : Nat)
    (hd1 : decodeHex4 a b c d = some hi)
    (hd2 : decodeHex4 g1 g2 g3 g4 = some lo)
    (hhi : 55296 ≤ hi ∧ hi < 56320) (hlo : 56320 ≤ lo ∧ lo < 57344)
    (r : List Char) :
    parseUEsc a b c d ('\\' :: 'u' :: g1 :: g2 :: g3 :: g4 :: r)
      = some (Char.ofNat (65536 + (hi - 55296) * 1024 + (lo - 56320)), r) := by
  unfold parseUEsc
  rw [hd1]
  simp only []
  rw [if_pos hhi]
  rw [hd2]
  simp only []
  rw [if_pos hlo]

theorem parseStrBody_cons_esc (f : Nat) (cs : List Char) (ch : Char) (r : List Char)
    (hpe : parseEsc cs = some (ch, r)) :
    parseStrBody (f + 1) ('\\' :: cs)
      = match parseStrBody f r with
        | none => none
        | some (body, rest) => some (ch :: body, rest) := by
  simp only [parseStrBody]
  rw [if_neg (by decide : ¬('\\' : Char) = '"')]
  simp only [if_true]
  rw [hpe]

set_option maxHeartbeats 1600000 in
theorem parseStrBody_escChar (f : Nat) (c : Char) (suffix : List Char) :
    parseStrBody (f + 1) (escChar c ++ suffix)
      = match parseStrBody f suffix with
        | none => none
        | some (body, rest) => some (c :: body, rest) := by
  have hval := char_valid_cases c
  by_cases h1 : c = '"'
  · subst h1
    rfl
  · by_cases h2 : c = '\\'
    · subst h2
      rfl
    · by_cases h3 : 32 ≤ c.toNat ∧ c.toNat ≤ 126
      · have hesc : escChar c = [c] := by
          simp only [escChar]
          rw [if_neg h1, if_neg h2, if_pos h3]
        rw [hesc]
        simp only [List.cons_append, List.nil_append, parseStrBody]
        rw [if_neg h1, if_neg h2]
      · by_cases h8 : c.toNat = 8
        · have hc : c = Char.ofNat 8 := by rw [← h8, Char.ofNat_toNat]
          subst hc
          rfl
        · by_cases h9 : c.toNat = 9
          · have hc : c = Char.ofNat 9 := by rw [← h9, Char.ofNat_toNat]
            subst hc
            rfl
          · by_cases h10 : c.toNat = 10
            · have hc : c = Char.ofNat 10 := by rw [← h10, Char.ofNat_toNat]
              subst hc
              rfl
            · by_cases h12 : c.toNat = 12
              · have hc : c = Char.ofNat 12 := by rw [← h12, Char.ofNat_toNat]
                subst hc
                rfl
              · by_cases h13 : c.toNat = 13
                · have hc : c = Char.ofNat 13 := by rw [← h13, Char.ofNat_toNat]
                  subst hc
                  rfl
                · by_cases hbmp : c.toNat < 65536
                  · -- basic-plane escape; a Char is never a surrogate
                    have hesc : escChar c = '\\' :: 'u' :: hex4 c.toNat := by
                      simp only [escChar]
                      rw [if_neg h1, if_neg h2, if_neg h3, if_neg h8, if_neg h9,
                        if_neg h10, if_neg h12, if_neg h13, if_pos hbmp]
                    rw [hesc]
                    have hpe : parseEsc ('u' :: (hex4 c.toNat ++ suffix))
                        = some (Char.ofNat c.toNat, suffix) := by
                      simp only [hex4, List.cons_append, List.nil_append, parseEsc]
                      exact parseUEsc_scalar _ _ _ _ c.toNat
                        (decodeHex4_hex4 c.toNat hbmp) (by omega) (by omega) suffix
                    simp only [List.cons_append, List.nil_append, parseStrBody]
                    rw [if_neg (by decide : ¬('\\' : Char) = '"')]
                    simp only [if_true]
                    rw [hpe]
                    simp only []
                    rw [Char.ofNat_toNat]
                  · -- astral plane: the escape is a surrogate pair
                    have hesc : escChar c
                        = ('\\' :: 'u' :: hex4 (55296 + (c.toNat - 65536) / 1024))
                          ++ ('\\' :: 'u' :: hex4 (56320 + (c.toNat - 65536) % 1024)) := by
                      simp only [escChar]
                      rw [if_neg h1, if_neg h2, if_neg h3, if_neg h8, if_neg h9,
                        if_neg h10, if_neg h12, if_neg h13, if_neg hbmp]
                    simp only [hex4] at hesc
                    set x1 := hexDig ((55296 + (c.toNat - 65536) / 1024) / 4096 % 16)
                      with hx1
                    set x2 := hexDig ((55296 + (c.toNat - 65536) / 1024) / 256 % 16)
                      with hx2
                    set x3 := hexDig ((55296 + (c.toNat - 65536) / 1024) / 16 % 16)
                      with hx3
                    set x4 := hexDig ((55296 + (c.toNat - 65536) / 1024) % 16)
                      with hx4
                    set y1 := hexDig ((56320 + (c.toNat - 65536) % 1024) / 4096 % 16)
                      with hy1
                    set y2 := hexDig ((56320 + (c.toNat - 65536) % 1024) / 256 % 16)
                      with hy2
                    set y3 := hexDig ((56320 + (c.toNat - 65536) % 1024) / 16 % 16)
                      with hy3
                    set y4 := hexDig ((56320 + (c.toNat - 65536) % 1024) % 16)
                      with hy4
                    have hd1 : decodeHex4 x1 x2 x3 x4
                        = some (55296 + (c.toNat - 65536) / 1024) := by
                      rw [hx1, hx2, hx3, hx4]
                      exact decodeHex4_hex4 _ (by omega)
                    have hd2 : decodeHex4 y1 y2 y3 y4
                        = some (56320 + (c.toNat - 65536) % 1024) := by
                      rw [hy1, hy2, hy3, hy4]
                      exact decodeHex4_hex4 _ (by omega)
                    have hpair := parseUEsc_pair x1 x2 x3 x4 y1 y2 y3 y4
                      (55296 + (c.toNat - 65536) / 1024)
                      (56320 + (c.toNat - 65536) % 1024)
                      hd1 hd2 (by omega) (by omega) suffix
                    have hchar : Char.ofNat (65536
                        + (55296 + (c.toNat - 65536) / 1024 - 55296) * 1024
                        + (56320 + (c.toNat - 65536) % 1024 - 56320))
                        = c := by
                      have harith : 65536
                          + (55296 + (c.toNat - 65536) / 1024 - 55296) * 1024
                          + (56320 + (c.toNat - 65536) % 1024 - 56320) = c.toNat := by
                        omega
                      rw [harith, Char.ofNat_toNat]
                    rw [hchar] at hpair
                    have hpe : parseEsc
                        ('u' :: x1 :: x2 :: x3 :: x4
                          :: '\\' :: 'u' :: y1 :: y2 :: y3 :: y4 :: suffix)
                        = some (c, suffix) := by
                      simp only [parseEsc]
                      exact hpair
                    rw [hesc]
                    simp only [List.cons_append, List.nil_append, List.append_assoc]
                    exact parseStrBody_cons_esc f
                      ('u' :: x1 :: x2 :: x3 :: x4
                        :: '\\' :: 'u' :: y1 :: y2 :: y3 :: y4 :: suffix)
                      c suffix hpe

theorem parseStrBody_rt : ∀ (s : List Char) (f : Nat) (rest : List Char),
    s.length + 1 ≤ f →
    parseStrBody f (escStr s ++ '"' :: rest) = some (s, rest) := by
  intro s
  induction s with
  | nil =>
    intro f rest hf
    cases f with
    | zero => omega
    | succ f₀ => simp [escStr, parseStrBody]
  | cons c s' ih =>
    intro f rest hf
    cases f with
    | zero => omega
    | succ f₀ =>
      simp only [escStr, List.append_assoc]
      rw [parseStrBody_escChar f₀ c (escStr s' ++ '"' :: rest)]
      rw [ih f₀ rest (by simpa using Nat.lt_succ_iff.mp (by simpa [List.length] using hf))]

theorem needV_pos (v : JValue) : 1 ≤ needV v := by
  cases v <;> simp only [needV] <;> omega

theorem needL_pos (xs : List JValue) : 1 ≤ needL xs := by
  cases xs <;> simp only [needL] <;> omega

theorem needFs_pos (fs : List (String × JValue)) : 1 ≤ needFs fs := by
  cases fs <;> simp only [needFs] <;> omega

theorem char_ne_of_toNat {a b : Char} (h : a.toNat ≠ b.toNat) : a ≠ b :=
  fun he => h (congrArg Char.toNat he)

theorem not_isWs_of_dig {c : Char} (h : isDig c = true) : isWs c = false := by
  have h1 := isDig_toNat h
  have e1 : ¬(c = ' ') := fun he => by rw [he] at h1; exact absurd h1 (by decide)
  have e2 : ¬(c = '\n') := fun he => by rw [he] at h1; exact absurd h1 (by decide)
  have e3 : ¬(c = '\t') := fun he => by rw [he] at h1; exact absurd h1 (by decide)
  have e4 : ¬(c = '\r') := fun he => by rw [he] at h1; exact absurd h1 (by decide)
  simp [isWs, e1, e2, e3, e4]

theorem dig_ne_of_toNat {c : Char} (h : isDig c = true) (d : Char)
    (hd : d.toNat < 48 ∨ 57 < d.toNat) : c ≠ d := by
  have h1 := isDig_toNat h
  exact char_ne_of_toNat (by omega)

/-- Every serialized value starts with a distinctive non-whitespace
character: never a closing bracket, closing brace or comma. -/
theorem rawSerV_head (lvl : Nat) (v : JValue) :
    ∃ c t, rawSerV lvl v = c :: t ∧ isWs c = false
      ∧ c ≠ ']' ∧ c ≠ rbrace ∧ c ≠ ',' := by
  cases v with
  | null => exact ⟨'n', _, rfl, by decide, by decide, by decide, by decide⟩
  | bool b =>
    cases b with
    | true => exact ⟨'t', _, rfl, by decide, by decide, by decide, by decide⟩
    | false => exact ⟨'f', _, rfl, by decide, by decide, by decide, by decide⟩
  | int n =>
    cases n with
    | ofNat m =>
      cases hnd : natDigits m with
      | nil => exact absurd hnd (natDigits_ne_nil m)
      | cons d ds =>
        have hd : isDig d = true :=
          natDigits_all_dig m d (by rw [hnd]; exact List.mem_cons_self _ _)
        refine ⟨d, ds, ?_, not_isWs_of_dig hd, dig_ne_of_toNat hd ']' (by decide),
          dig_ne_of_toNat hd rbrace (by decide), dig_ne_of_toNat hd ',' (by decide)⟩
        show serInt (Int.ofNat m) = d :: ds
        show natDigits m = d :: ds
        exact hnd
    | negSucc m =>
      exact ⟨'-', _, rfl, by decide, by decide, by decide, by decide⟩
  | str s => exact ⟨'"', _, rfl, by decide, by decide, by decide, by decide⟩
  | arr xs =>
    cases xs with
    | nil => exact ⟨'[', _, rfl, by decide, by decide, by decide, by decide⟩
    | cons x xs => exact ⟨'[', _, rfl, by decide, by decide, by decide, by decide⟩
  | obj fs =>
    cases fs with
    | nil => exact ⟨lbrace, _, rfl, by decide, by decide, by decide, by decide⟩
    | cons kv fs => exact ⟨lbrace, _, rfl, by decide, by decide, by decide, by decide⟩

/-- A serialized value absorbs no leading whitespace skipping. -/
theorem skipWs_rawSerV (lvl : Nat) (v : JValue) (rest : List Char) :
    skipWs (rawSerV lvl v ++ rest) = rawSerV lvl v ++ rest := by
  obtain ⟨c, t, he, hws, -, -, -⟩ := rawSerV_head lvl v
  rw [he, List.cons_append, skipWs_not _ hws, ← List.cons_append, ← he]

theorem skipWs_cons_ws (c : Char) (h : isWs c = true) (cs : List Char) :
    skipWs (c :: cs) = skipWs cs := by
  simp [skipWs, h]

theorem wsNlIndent (l : Nat) : ∀ c ∈ ('\n' :: mkIndent l), isWs c = true := by
  intro c hc
  rcases List.mem_cons.mp hc with rfl | hc
  · decide
  · rcases List.eq_of_mem_replicate hc with rfl
    decide

theorem goodRest_items (lvl : Nat) (xs : List JValue) (z : List Char) :
    goodRest (rawSerItems lvl xs ++ '\n' :: z) = true := by
  cases xs <;> rfl

theorem goodRest_fields (lvl : Nat) (fs : List (String × JValue)) (z : List Char) :
    goodRest (rawSerFields lvl fs ++ '\n' :: z) = true := by
  cases fs <;> rfl

theorem parse_rt : ∀ f : Nat,
    (∀ (v : JValue) (lvl : Nat) (ws rest : List Char),
      (∀ c ∈ ws, isWs c = true) → goodRest rest = true → needV v ≤ f →
      parseV f (ws ++ (rawSerV lvl v ++ rest)) = some (v, rest))
    ∧ (∀ (k : String) (v : JValue) (lvl : Nat) (ws rest : List Char),
      (∀ c ∈ ws, isWs c = true) → goodRest rest = true →
      2 + k.length + needV v ≤ f →
      parseField f (ws ++ (serStrLit k ++ ':' :: ' ' :: (rawSerV lvl v ++ rest)))
        = some ((k, v), rest))
    ∧ (∀ (fs : List (String × JValue)) (lvlF lvlC : Nat) (rest : List Char),
      needFs fs ≤ f →
      parseObjTail f
          (rawSerFields lvlF fs ++ '\n' :: (mkIndent lvlC ++ rbrace :: rest))
        = some (fs, rest))
    ∧ (∀ (xs : List JValue) (lvlF lvlC : Nat) (rest : List Char),
      needL xs ≤ f →
      parseArrTail f
          (rawSerItems lvlF xs ++ '\n' :: (mkIndent lvlC ++ ']' :: rest))
        = some (xs, rest)) := by
  intro f
  induction f using Nat.strong_induction_on with
  | _ f ih =>
    cases f with
    | zero =>
      refine ⟨?_, ?_, ?_, ?_⟩
      · intro v lvl ws rest hws hgr hf
        have := needV_pos v
        omega
      · intro k v lvl ws rest hws hgr hf
        have := needV_pos v
        omega
      · intro fs lvlF lvlC rest hf
        have := needFs_pos fs
        omega
      · intro xs lvlF lvlC rest hf
        have := needL_pos xs
        omega
    | succ f₀ =>
      obtain ⟨ihV, ihF, ihO, ihA⟩ := ih f₀ (Nat.lt_succ_self f₀)
      refine ⟨?_, ?_, ?_, ?_⟩
      · -- values
        intro v lvl ws rest hws hgr hf
        have hsk : skipWs (ws ++ (rawSerV lvl v ++ rest)) = rawSerV lvl v ++ rest := by
          rw [skipWs_allWs ws _ hws, skipWs_rawSerV]
        cases v with
        | null =>
          simp only [parseV, hsk]
          simp [rawSerV, (by decide : ¬('n' : Char) = lbrace)]
        | bool b =>
          cases b with
          | true =>
            simp only [parseV, hsk]
            simp [rawSerV, (by decide : ¬('t' : Char) = lbrace)]
          | false =>
            simp only [parseV, hsk]
            simp [rawSerV, (by decide : ¬('f' : Char) = lbrace)]
        | int n =>
          cases n with
          | ofNat m =>
            cases hnd : natDigits m with
            | nil => exact absurd hnd (natDigits_ne_nil m)
            | cons d ds =>
              have hd : isDig d = true :=
                natDigits_all_dig m d (by rw [hnd]; exact List.mem_cons_self _ _)
              have hm : munchDigits (d :: (ds ++ rest)) 0 = (m, rest) := by
                have h0 := munch_natDigits m rest hgr
                rw [hnd, List.cons_append] at h0
                exact h0
              simp only [parseV, hsk]
              simp only [rawSerV, serInt, hnd, List.cons_append]
              rw [if_neg (dig_ne_of_toNat hd lbrace (by decide)),
                if_neg (dig_ne_of_toNat hd '[' (by decide)),
                if_neg (dig_ne_of_toNat hd '"' (by decide)),
                if_neg (dig_ne_of_toNat hd 'n' (by decide)),
                if_neg (dig_ne_of_toNat hd 't' (by decide)),
                if_neg (dig_ne_of_toNat hd 'f' (by decide)),
                if_neg (dig_ne_of_toNat hd '-' (by decide)),
                if_pos hd]
              simp only [hm]
              rfl
          | negSucc m =>
            cases hnd : natDigits (m + 1) with
            | nil => exact absurd hnd (natDigits_ne_nil _)
            | cons d ds =>
              have hd : isDig d = true :=
                natDigits_all_dig (m + 1) d (by rw [hnd]; exact List.mem_cons_self _ _)
              have hm : munchDigits (d :: (ds ++ rest)) 0 = (m + 1, rest) := by
                have h0 := munch_natDigits (m + 1) rest hgr
                rw [hnd, List.cons_append] at h0
                exact h0
              simp only [parseV, hsk]
              simp only [rawSerV, serInt, hnd, List.cons_append]
              rw [if_neg (by decide : ¬('-' : Char) = lbrace),
                if_neg (by decide : ¬('-' : Char) = '['),
                if_neg (by decide : ¬('-' : Char) = '"'),
                if_neg (by decide : ¬('-' : Char) = 'n'),
                if_neg (by decide : ¬('-' : Char) = 't'),
                if_neg (by decide : ¬('-' : Char) = 'f'),
                if_pos trivial]
              rw [if_pos hd]
              simp only [hm]
              have hneg : -((m + 1 : Nat) : Int) = Int.negSucc m := by
                rw [Int.negSucc_eq]
                push_cast
                ring
              rw [hneg]
        | str s =>
            have hlen : s.data.length + 1 ≤ f₀ := by
              simp only [needV] at hf
              have h2 : s.length = s.data.length := rfl
              omega
            have hsb := parseStrBody_rt s.data f₀ rest hlen
            simp only [parseV, hsk]
            simp only [rawSerV, serStrLit, List.cons_append, List.nil_append,
              List.append_assoc]
            rw [if_neg (by decide : ¬('"' : Char) = lbrace),
              if_neg (by decide : ¬('"' : Char) = '['),
              if_pos trivial]
            simp only [hsb]
        | arr xs =>
          cases xs with
          | nil =>
            have hske : skipWs (']' :: rest) = ']' :: rest :=
              skipWs_not _ (by decide)
            simp only [parseV, hsk]
            simp [rawSerV, hske, (by decide : ¬('[' : Char) = lbrace)]
          | cons x xs' =>
            simp only [needV, needL] at hf
            obtain ⟨c₁, t₁, he₁, hws₁, hne₁, -, -⟩ := rawSerV_head (lvl + 1) x
            have hsk2 : skipWs ('\n' :: (mkIndent (lvl + 1)
                ++ (rawSerV (lvl + 1) x ++ (rawSerItems (lvl + 1) xs'
                  ++ '\n' :: (mkIndent lvl ++ ']' :: rest)))))
                = c₁ :: (t₁ ++ (rawSerItems (lvl + 1) xs'
                  ++ '\n' :: (mkIndent lvl ++ ']' :: rest))) := by
              rw [skipWs_cons_ws '\n' (by decide), skipWs_indent, skipWs_rawSerV,
                he₁, List.cons_append]
            have hpv := ihV x (lvl + 1) []
              (rawSerItems (lvl + 1) xs' ++ '\n' :: (mkIndent lvl ++ ']' :: rest))
              (by intro c hc; cases hc) (goodRest_items _ _ _) (by omega)
            simp only [List.nil_append] at hpv
            rw [he₁, List.cons_append] at hpv
            have hpa := ihA xs' (lvl + 1) lvl rest (by omega)
            simp only [parseV, hsk]
            simp only [rawSerV, List.cons_append, List.nil_append, List.append_assoc]
            rw [if_neg (by decide : ¬('[' : Char) = lbrace),
              if_pos trivial]
            simp only [hsk2]
            rw [if_neg hne₁]
            simp only [hpv]
            simp only [hpa]
        | obj fs =>
          cases fs with
          | nil =>
            have hske : skipWs (rbrace :: rest) = rbrace :: rest :=
              skipWs_not _ (by decide)
            simp only [parseV, hsk]
            simp [rawSerV, hske]
          | cons kv fs' =>
            simp only [needV, needFs] at hf
            have hsk2 : skipWs ('\n' :: (mkIndent (lvl + 1)
                ++ ('"' :: (escStr kv.1.data ++ ('"' :: (':' :: ' '
                  :: (rawSerV (lvl + 1) kv.2 ++ (rawSerFields (lvl + 1) fs'
                  ++ '\n' :: (mkIndent lvl ++ rbrace :: rest)))))))))
                = '"' :: (escStr kv.1.data ++ ('"' :: (':' :: ' '
                  :: (rawSerV (lvl + 1) kv.2 ++ (rawSerFields (lvl + 1) fs'
                  ++ '\n' :: (mkIndent lvl ++ rbrace :: rest)))))) := by
              rw [skipWs_cons_ws '\n' (by decide), skipWs_indent,
                skipWs_not _ (by decide)]
            have hpf := ihF kv.1 kv.2 (lvl + 1) []
              (rawSerFields (lvl + 1) fs' ++ '\n' :: (mkIndent lvl ++ rbrace :: rest))
              (by intro c hc; cases hc) (goodRest_fields _ _ _) (by omega)
            simp only [List.nil_append, serStrLit, List.cons_append,
              List.append_assoc] at hpf
            have hpo := ihO fs' (lvl + 1) lvl rest (by omega)
            simp only [parseV, hsk]
            simp only [rawSerV, serStrLit, List.cons_append, List.nil_append,
              List.append_assoc]
            rw [if_pos trivial]
            simp only [hsk2]
            rw [if_neg (by decide : ¬('"' : Char) = rbrace)]
            simp only [hpf]
            simp only [hpo]
      · -- fields
        intro k v lvl ws rest hws hgr hfu
        have hnp := needV_pos v
        have hlen : k.data.length + 1 ≤ f₀ := by
          have h2 : k.length = k.data.length := rfl
          omega
        have hsk : skipWs (ws ++ (serStrLit k ++ ':' :: ' ' :: (rawSerV lvl v ++ rest)))
            = '"' :: (escStr k.data ++ ('"' :: (':' :: ' ' :: (rawSerV lvl v ++ rest)))) := by
          rw [skipWs_allWs ws _ hws]
          simp only [serStrLit, List.cons_append, List.append_assoc, List.nil_append]
          rw [skipWs_not _ (by decide)]
        have hsb := parseStrBody_rt k.data f₀ (':' :: ' ' :: (rawSerV lvl v ++ rest)) hlen
        have hskT : skipWs (':' :: ' ' :: (rawSerV lvl v ++ rest))
            = ':' :: ' ' :: (rawSerV lvl v ++ rest) := skipWs_not _ (by decide)
        have hpv := ihV v lvl [' '] rest
          (by intro c hc; rcases List.mem_singleton.mp hc with rfl; decide)
          hgr (by omega)
        simp only [List.cons_append, List.nil_append] at hpv
        simp only [parseField]
        simp only [hsk]
        rw [if_pos trivial]
        simp only [hsb]
        simp only [hskT]
        simp only [hpv]
      · -- object tails
        intro fs lvlF lvlC rest hfu
        cases fs with
        | nil =>
          have hsk : skipWs ('\n' :: (mkIndent lvlC ++ rbrace :: rest))
              = rbrace :: rest := by
            rw [skipWs_cons_ws '\n' (by decide), skipWs_indent,
              skipWs_not _ (by decide)]
          simp only [rawSerFields, List.nil_append, parseObjTail]
          simp only [hsk]
          rw [if_pos trivial]
        | cons kv fs' =>
          simp only [needFs] at hfu
          have hpf := ihF kv.1 kv.2 lvlF ('\n' :: mkIndent lvlF)
            (rawSerFields lvlF fs' ++ '\n' :: (mkIndent lvlC ++ rbrace :: rest))
            (wsNlIndent lvlF) (goodRest_fields _ _ _) (by omega)
          simp only [serStrLit, List.cons_append, List.append_assoc,
            List.nil_append] at hpf
          have hpo := ihO fs' lvlF lvlC rest (by omega)
          simp only [parseObjTail]
          simp only [rawSerFields, serStrLit, List.cons_append, List.nil_append,
            List.append_assoc]
          have hskc : skipWs (',' :: ('\n' :: (mkIndent lvlF
              ++ ('"' :: (escStr kv.1.data ++ ('"' :: (':' :: ' '
                :: (rawSerV lvlF kv.2 ++ (rawSerFields lvlF fs'
                ++ '\n' :: (mkIndent lvlC ++ rbrace :: rest))))))))))
              = ',' :: ('\n' :: (mkIndent lvlF
              ++ ('"' :: (escStr kv.1.data ++ ('"' :: (':' :: ' '
                :: (rawSerV lvlF kv.2 ++ (rawSerFields lvlF fs'
                ++ '\n' :: (mkIndent lvlC ++ rbrace :: rest))))))))) :=
            skipWs_not _ (by decide)
          simp only [hskc]
          rw [if_neg (by decide : ¬(',' : Char) = rbrace),
            if_pos trivial]
          simp only [hpf]
          simp only [hpo]
      · -- array tails
        intro xs lvlF lvlC rest hfu
        cases xs with
        | nil =>
          have hsk : skipWs ('\n' :: (mkIndent lvlC ++ ']' :: rest))
              = ']' :: rest := by
            rw [skipWs_cons_ws '\n' (by decide), skipWs_indent,
              skipWs_not _ (by decide)]
          simp only [rawSerItems, List.nil_append, parseArrTail]
          simp only [hsk]
          rw [if_pos trivial]
        | cons x xs' =>
          simp only [needL] at hfu
          have hpv := ihV x lvlF ('\n' :: mkIndent lvlF)
            (rawSerItems lvlF xs' ++ '\n' :: (mkIndent lvlC ++ ']' :: rest))
            (wsNlIndent lvlF) (goodRest_items _ _ _) (by omega)
          simp only [List.cons_append, List.append_assoc, List.nil_append] at hpv
          have hpa := ihA xs' lvlF lvlC rest (by omega)
          simp only [parseArrTail]
          simp only [rawSerItems, List.cons_append, List.nil_append,
            List.append_assoc]
          have hskc : skipWs (',' :: ('\n' :: (mkIndent lvlF
              ++ (rawSerV lvlF x ++ (rawSerItems lvlF xs'
                ++ '\n' :: (mkIndent lvlC ++ ']' :: rest))))))
              = ',' :: ('\n' :: (mkIndent lvlF
              ++ (rawSerV lvlF x ++ (rawSerItems lvlF xs'
                ++ '\n' :: (mkIndent lvlC ++ ']' :: rest))))) :=
            skipWs_not _ (by decide)
          simp only [hskc]
          rw [if_neg (by decide : ¬(',' : Char) = ']'),
            if_pos trivial]
          simp only [hpv]
          simp only [hpa]

theorem escChar_pos (c : Char) : 1 ≤ (escChar c).length := by
  simp only [escChar]
  split_ifs <;> simp [hex4]

theorem escStr_len (s : List Char) : s.length ≤ (escStr s).length := by
  induction s with
  | nil => simp [escStr]
  | cons c cs ih =>
    have := escChar_pos c
    simp only [escStr, List.length_append, List.length_cons]
    omega

theorem needLen (n : Nat) :
    (∀ v, jsizeV v ≤ n → ∀ lvl, needV v ≤ (rawSerV lvl v).length + 1)
    ∧ (∀ xs, jsizeL xs ≤ n → ∀ lvl, needL xs ≤ (rawSerItems lvl xs).length + 1)
    ∧ (∀ fs, jsizeFs fs ≤ n → ∀ lvl,
        needFs fs ≤ (rawSerFields lvl fs).length + 1) := by
  induction n using Nat.strong_induction_on with
  | _ n ih =>
    have h1 : ∀ v, jsizeV v ≤ n → ∀ lvl, needV v ≤ (rawSerV lvl v).length + 1 := by
      intro v hs lvl
      cases v with
      | null => simp [needV, rawSerV]
      | bool b => cases b <;> simp [needV, rawSerV]
      | int m =>
        simp only [needV]
        omega
      | str s =>
        have h2 : s.length = s.data.length := rfl
        have h3 := escStr_len s.data
        simp only [needV, rawSerV, serStrLit]
        simp [List.length_cons, List.length_append]
        omega
      | arr xs =>
        cases xs with
        | nil => simp [needV, needL, rawSerV]
        | cons x xs' =>
          simp only [jsizeV, jsizeL] at hs
          obtain ⟨ih1, ih2, -⟩ := ih (n - 1) (by omega)
          have hx := ih1 x (by omega) (lvl + 1)
          have hxs := ih2 xs' (by omega) (lvl + 1)
          simp only [needV, needL]
          simp [rawSerV, mkIndent]
          omega
      | obj fs =>
        cases fs with
        | nil => simp [needV, needFs, rawSerV]
        | cons kv fs' =>
          simp only [jsizeV, jsizeFs] at hs
          obtain ⟨ih1, -, ih3⟩ := ih (n - 1) (by omega)
          have hx := ih1 kv.2 (by omega) (lvl + 1)
          have hfs := ih3 fs' (by omega) (lvl + 1)
          have h2 : kv.1.length = kv.1.data.length := rfl
          have h3 := escStr_len kv.1.data
          simp only [needV, needFs]
          simp [rawSerV, serStrLit, mkIndent]
          omega
    have h2c : ∀ xs, jsizeL xs ≤ n → ∀ lvl,
        needL xs ≤ (rawSerItems lvl xs).length + 1 := by
      intro xs
      induction xs with
      | nil =>
        intro _ lvl
        simp [needL, rawSerItems]
      | cons x xs' ihl =>
        intro hsz lvl
        simp only [jsizeL] at hsz
        have hx := h1 x (by omega) lvl
        have hxs := ihl (by omega) lvl
        simp only [needL]
        simp [rawSerItems, mkIndent]
        omega
    have h3c : ∀ fs, jsizeFs fs ≤ n → ∀ lvl,
        needFs fs ≤ (rawSerFields lvl fs).length + 1 := by
      intro fs
      induction fs with
      | nil =>
        intro _ lvl
        simp [needFs, rawSerFields]
      | cons kv fs' ihl =>
        intro hsz lvl
        simp only [jsizeFs] at hsz
        have hx := h1 kv.2 (by omega) lvl
        have hfs := ihl (by omega) lvl
        have h2 : kv.1.length = kv.1.data.length := rfl
        have h3 := escStr_len kv.1.data
        simp only [needFs]
        simp [rawSerFields, serStrLit, mkIndent]
        omega
    exact ⟨h1, h2c, h3c⟩

/-- Parsing the serialized text of any value returns exactly that value. -/
theorem parseJson_rawSerV (v : JValue) :
    parseJson (String.mk (rawSerV 0 v)) = some v := by
  unfold parseJson
  have hd : (String.mk (rawSerV 0 v)).data = rawSerV 0 v := rfl
  rw [hd]
  have hrt := (parse_rt ((rawSerV 0 v).length + 1)).1 v 0 [] []
    (by intro c hc; cases hc) rfl ((needLen (jsizeV v)).1 v le_rfl 0)
  simp only [List.nil_append, List.append_nil] at hrt
  simp only [hrt]
  rfl

theorem insertByKey_perm (kv : String × JValue) (l : List (String × JValue)) :
    List.Perm (insertByKey kv l) (kv :: l) := by
  induction l with
  | nil => exact List.Perm.refl _
  | cons hd tl ih =>
    simp only [insertByKey]
    by_cases h : kv.1 < hd.1
    · rw [if_pos h]
    · rw [if_neg h]
      exact (List.Perm.cons hd ih).trans (List.Perm.swap kv hd tl)

theorem sortPairs_perm (l : List (String × JValue)) :
    List.Perm (sortPairs l) l := by
  induction l with
  | nil => exact List.Perm.nil
  | cons kv tl ih => exact (insertByKey_perm kv (sortPairs tl)).trans (ih.cons kv)

theorem sortJFs_length (fs : List (String × JValue)) :
    (sortJFs fs).length = fs.length := by
  induction fs with
  | nil => rfl
  | cons kv tl ih => simp [sortJFs, ih]

theorem sortJFs_mem {fs : List (String × JValue)} {kv' : String × JValue}
    (h : kv' ∈ sortJFs fs) : ∃ v, (kv'.1, v) ∈ fs ∧ kv'.2 = sortJ v := by
  induction fs with
  | nil => cases h
  | cons kv tl ih =>
    rcases List.mem_cons.mp h with he | hm
    · exact ⟨kv.2, by rw [he]; exact List.mem_cons_self _ _, by rw [he]⟩
    · obtain ⟨v, hv1, hv2⟩ := ih hm
      exact ⟨v, List.mem_cons_of_mem _ hv1, hv2⟩

theorem lookupKV_of_mem_nodup {l : List (String × JValue)}
    {kv : String × JValue} (h : kv ∈ l) (hn : (l.map Prod.fst).Nodup) :
    lookupKV l kv.1 = some kv.2 := by
  induction l with
  | nil => cases h
  | cons hd tl ih =>
    rcases List.mem_cons.mp h with he | hm
    · subst he
      simp [lookupKV]
    · have hne : ¬hd.1 = kv.1 := by
        intro he
        have : kv.1 ∈ tl.map Prod.fst := List.mem_map_of_mem _ hm
        rw [← he] at this
        exact (List.nodup_cons.mp hn).1 this
      simp only [lookupKV, if_neg hne]
      exact ih hm (List.nodup_cons.mp hn).2

theorem jsizeV_pos (v : JValue) : 1 ≤ jsizeV v := by
  cases v <;> simp [jsizeV]

theorem jeq_sortJ_all (n : Nat) :
    (∀ u, jsizeV u ≤ n → nodupJ u = true → jeq (sortJ u) u = true)
    ∧ (∀ xs, jsizeL xs ≤ n → nodupJL xs = true → jeqL (sortJL xs) xs = true)
    ∧ (∀ fs, jsizeFs fs ≤ n → (fs.map Prod.fst).Nodup → nodupJFs fs = true →
        ∀ ls, (∀ kv' ∈ ls, ∃ v, (kv'.1, v) ∈ fs ∧ kv'.2 = sortJ v) →
        jeqFs ls fs = true) := by
  induction n using Nat.strong_induction_on with
  | _ n ih =>
    have h1 : ∀ u, jsizeV u ≤ n → nodupJ u = true → jeq (sortJ u) u = true := by
      intro u hs hnd
      cases u with
      | null => simp [sortJ, jeq]
      | bool b => simp [sortJ, jeq]
      | int m => simp [sortJ, jeq]
      | str t => simp [sortJ, jeq]
      | arr xs =>
        simp only [jsizeV] at hs
        simp only [sortJ, jeq]
        exact (ih (n - 1) (by omega)).2.1 xs (by omega) (by simpa [nodupJ] using hnd)
      | obj fs =>
        simp only [jsizeV] at hs
        obtain ⟨hkeys, hvals⟩ := nodupJ_obj_parts hnd
        have hlen : (sortPairs (sortJFs fs)).length = fs.length := by
          rw [(sortPairs_perm _).length_eq, sortJFs_length]
        simp only [sortJ, jeq, Bool.and_eq_true]
        constructor
        · simp [hlen]
        · refine (ih (n - 1) (by omega)).2.2 fs (by omega) hkeys hvals
            (sortPairs (sortJFs fs)) ?_
          intro kv' hkv'
          exact sortJFs_mem ((sortPairs_perm _).mem_iff.mp hkv')
    have h2 : ∀ xs, jsizeL xs ≤ n → nodupJL xs = true →
        jeqL (sortJL xs) xs = true := by
      intro xs
      induction xs with
      | nil =>
        intro _ _
        simp [sortJL, jeqL]
      | cons x xs' ihl =>
        intro hs hnd
        simp only [jsizeL] at hs
        simp only [nodupJL, Bool.and_eq_true] at hnd
        have hszx : jsizeV x ≤ n := by
          have := jsizeV_pos x
          omega
        simp only [sortJL, jeqL, Bool.and_eq_true]
        exact ⟨h1 x hszx hnd.1, ihl (by omega) hnd.2⟩
    have h3 : ∀ fs, jsizeFs fs ≤ n → (fs.map Prod.fst).Nodup →
        nodupJFs fs = true →
        ∀ ls, (∀ kv' ∈ ls, ∃ v, (kv'.1, v) ∈ fs ∧ kv'.2 = sortJ v) →
        jeqFs ls fs = true := by
      intro fs hs hkeys hvals ls
      induction ls with
      | nil =>
        intro _
        simp [jeqFs]
      | cons kv' ls' ihl =>
        intro hmem
        obtain ⟨v, hv1, hv2⟩ := hmem kv' (List.mem_cons_self _ _)
        have hlk : lookupKV fs kv'.1 = some v :=
          lookupKV_of_mem_nodup hv1 hkeys
        have hjv : jeq kv'.2 v = true := by
          rw [hv2]
          exact h1 v (le_trans (jsizeFs_mem hv1) hs)
            (nodupJFs_mem hv1 hvals)
        simp only [jeqFs, hlk, Bool.and_eq_true]
        exact ⟨hjv, ihl fun kv₂ h₂ => hmem kv₂ (List.mem_cons_of_mem _ h₂)⟩
    exact ⟨h1, h2, h3⟩

theorem nodupJFs_of_forall {l : List (String × JValue)}
    (h : ∀ kv ∈ l, nodupJ kv.2 = true) : nodupJFs l = true := by
  induction l with
  | nil => rfl
  | cons hd tl ih =>
    simp only [nodupJFs, Bool.and_eq_true]
    exact ⟨h hd (List.mem_cons_self _ _),
      ih fun kv hkv => h kv (List.mem_cons_of_mem _ hkv)⟩

/-- A configuration whose sections are Python dicts serializes to a JSON
value with duplicate-free keys at every level. -/
theorem nodupJ_configToJ {r : Config} (h1 : (r.map Prod.fst).Nodup)
    (h2 : ∀ kv ∈ r, nodupJ (JValue.obj kv.2) = true) :
    nodupJ (configToJ r) = true := by
  unfold configToJ
  simp only [nodupJ, Bool.and_eq_true, decide_eq_true_eq]
  constructor
  · rw [List.map_map]
    exact h1
  · refine nodupJFs_of_forall ?_
    intro kv hkv
    obtain ⟨kv₀, hkv₀, rfl⟩ := List.mem_map.mp hkv
    exact h2 kv₀ hkv₀

/-- The persisted text of a configuration parses back to its key-sorted
JSON value. -/
theorem parseJson_dumpsConfig (r : Config) :
    parseJson (dumpsConfig r) = some (sortJ (configToJ r)) := by
  unfold dumpsConfig
  exact parseJson_rawSerV (sortJ (configToJ r))

/-- Key sorting is invisible to Python dictionary equality. -/
theorem jeq_sortJ {u : JValue} (h : nodupJ u = true) :
    jeq (sortJ u) u = true :=
  (jeq_sortJ_all (jsizeV u)).1 u le_rfl h

theorem lookupKV_none_not_mem {α : Type} {l : List (String × α)} {k : String}
    (h : lookupKV l k = none) : k ∉ l.map Prod.fst := by
  induction l with
  | nil => simp
  | cons hd tl ih =>
    by_cases hk : hd.1 = k
    · rw [show hd = (hd.1, hd.2) from rfl] at h
      simp only [lookupKV, if_pos hk] at h
      exact Option.noConfusion h
    · rw [show hd = (hd.1, hd.2) from rfl] at h
      simp only [lookupKV, if_neg hk] at h
      simp only [List.map_cons, List.mem_cons]
      rintro (rfl | hm)
      · exact hk rfl
      · exact ih h hm

theorem setKV_map_fst_some {α : Type} :
    ∀ (l : List (String × α)) (k : String) (v w : α),
    lookupKV l k = some w →
    (setKV l k v).map Prod.fst = l.map Prod.fst := by
  intro l
  induction l with
  | nil => intro k v w h; cases h
  | cons hd tl ih =>
    intro k v w h
    by_cases hk : hd.1 = k
    · rw [show hd = (hd.1, hd.2) from rfl]
      simp only [setKV, if_pos hk, List.map_cons]
      rw [hk]
    · rw [show hd = (hd.1, hd.2) from rfl] at h ⊢
      simp only [lookupKV, if_neg hk] at h
      simp only [setKV, if_neg hk, List.map_cons]
      rw [ih k v w h]

theorem mem_setKV {α : Type} :
    ∀ (l : List (String × α)) (k : String) (v : α) (kv : String × α),
    kv ∈ setKV l k v → kv ∈ l ∨ kv = (k, v) := by
  intro l
  induction l with
  | nil =>
    intro k v kv h
    rcases List.mem_singleton.mp h with rfl
    exact Or.inr rfl
  | cons hd tl ih =>
    intro k v kv h
    rw [show hd = (hd.1, hd.2) from rfl] at h
    simp only [setKV] at h
    by_cases hk : hd.1 = k
    · rw [if_pos hk] at h
      rcases List.mem_cons.mp h with rfl | hm
      · exact Or.inr rfl
      · exact Or.inl (List.mem_cons_of_mem _ hm)
    · rw [if_neg hk] at h
      rcases List.mem_cons.mp h with rfl | hm
      · exact Or.inl (List.mem_cons_self _ _)
      · rcases ih k v kv hm with hm' | he
        · exact Or.inl (List.mem_cons_of_mem _ hm')
        · exact Or.inr he

theorem nodupJFs_setKV :
    ∀ (l : List (String × JValue)) (k : String) (v : JValue),
    nodupJFs l = true → nodupJ v = true → nodupJFs (setKV l k v) = true := by
  intro l
  induction l with
  | nil =>
    intro k v _ hv
    simp [setKV, nodupJFs, hv]
  | cons hd tl ih =>
    intro k v hl hv
    simp only [nodupJFs, Bool.and_eq_true] at hl
    rw [show hd = (hd.1, hd.2) from rfl]
    simp only [setKV]
    by_cases hk : hd.1 = k
    · rw [if_pos hk]
      simp only [nodupJFs, Bool.and_eq_true]
      exact ⟨hv, hl.2⟩
    · rw [if_neg hk]
      simp only [nodupJFs, Bool.and_eq_true]
      exact ⟨hl.1, ih k v hl.2 hv⟩

theorem nodupJFs_append_one {l : List (String × JValue)} {k : String}
    {v : JValue} (hl : nodupJFs l = true) (hv : nodupJ v = true) :
    nodupJFs (l ++ [(k, v)]) = true := by
  induction l with
  | nil => simp [nodupJFs, hv]
  | cons hd tl ih =>
    simp only [nodupJFs, Bool.and_eq_true] at hl
    simp only [List.cons_append, nodupJFs, Bool.and_eq_true]
    exact ⟨hl.1, ih hl.2⟩

theorem nodup_keys_append_one {α : Type} {l : List (String × α)} {k : String}
    {v : α} (hl : (l.map Prod.fst).Nodup) (hk : k ∉ l.map Prod.fst) :
    ((l ++ [(k, v)]).map Prod.fst).Nodup := by
  rw [List.map_append]
  rw [List.nodup_append]
  refine ⟨hl, List.nodup_singleton _, ?_⟩
  intro a ha hb
  rcases List.mem_singleton.mp hb with rfl
  exact hk ha

/-- Merging schema defaults into duplicate-free values keeps them
duplicate free, at every nesting level. -/
theorem mergeWf (n : Nat) :
    (∀ d v, jsizeV d ≤ n → nodupJ d = true → nodupJ v = true →
      nodupJ (mergeValue d v) = true)
    ∧ (∀ dfs vfs, jsizeFs dfs ≤ n → nodupJFs dfs = true →
      nodupJ (JValue.obj vfs) = true →
      nodupJ (JValue.obj (mergeFields dfs vfs)) = true) := by
  induction n using Nat.strong_induction_on with
  | _ n ih =>
    have h1 : ∀ d v, jsizeV d ≤ n → nodupJ d = true → nodupJ v = true →
        nodupJ (mergeValue d v) = true := by
      intro d v hs hd hv
      cases d with
      | obj dfs =>
        cases v with
        | obj vfs =>
          simp only [jsizeV] at hs
          simp only [mergeValue]
          exact (ih (n - 1) (by omega)).2 dfs vfs (by omega)
            (nodupJ_obj_parts hd).2 hv
        | null => exact hv
        | bool b => exact hv
        | int m => exact hv
        | str t => exact hv
        | arr xs => exact hv
      | null => exact hv
      | bool b => exact hv
      | int m => exact hv
      | str t => exact hv
      | arr xs => exact hv
    have h2 : ∀ dfs vfs, jsizeFs dfs ≤ n → nodupJFs dfs = true →
        nodupJ (JValue.obj vfs) = true →
        nodupJ (JValue.obj (mergeFields dfs vfs)) = true := by
      intro dfs
      induction dfs with
      | nil =>
        intro vfs _ _ hv
        exact hv
      | cons kdv rest ihl =>
        intro vfs hs hnd hv
        obtain ⟨k, dv⟩ := kdv
        simp only [jsizeFs] at hs
        simp only [nodupJFs, Bool.and_eq_true] at hnd
        obtain ⟨hkeys, hvals⟩ := nodupJ_obj_parts hv
        simp only [mergeFields]
        cases hlk : lookupKV vfs k with
        | some v =>
          have hv' : nodupJ v = true :=
            nodupJFs_mem (lookupKV_mem _ _ _ hlk) hvals
          have hmv : nodupJ (mergeValue dv v) = true :=
            h1 dv v (by omega) hnd.1 hv'
          refine ihl (setKV vfs k (mergeValue dv v)) (by omega) hnd.2 ?_
          simp only [nodupJ, Bool.and_eq_true, decide_eq_true_eq]
          refine ⟨?_, nodupJFs_setKV vfs k _ hvals hmv⟩
          rw [setKV_map_fst_some vfs k _ v hlk]
          exact hkeys
        | none =>
          refine ihl (vfs ++ [(k, dv)]) (by omega) hnd.2 ?_
          simp only [nodupJ, Bool.and_eq_true, decide_eq_true_eq]
          exact ⟨nodup_keys_append_one hkeys (lookupKV_none_not_mem hlk),
            nodupJFs_append_one hvals hnd.1⟩
    exact ⟨h1, h2⟩

/-- A synthesis step keeps the configuration of Python-dict shape. -/
theorem synthStep_wf (cfg : Config) (role : String) (dprops : Props)
    (hc : wfConfig cfg) (hd : wfProps dprops) :
    wfConfig (synthStep cfg role dprops).2 := by
  unfold synthStep
  cases hlk : lookupKV cfg role with
  | none =>
    simp only []
    refine ⟨nodup_keys_append_one hc.1 (lookupKV_none_not_mem hlk), ?_⟩
    intro kv hkv
    rcases List.mem_append.mp hkv with hm | hm
    · exact hc.2 kv hm
    · rcases List.mem_singleton.mp hm with rfl
      exact hd
  | some s =>
    have hs : wfProps s := hc.2 (role, s) (lookupKV_mem _ _ _ hlk)
    simp only []
    by_cases hn : hasName s = true
    · rw [if_pos hn]
      refine ⟨?_, ?_⟩
      · rw [setKV_map_fst_some cfg role s s hlk]
        exact hc.1
      · intro kv hkv
        rcases mem_setKV cfg role s kv hkv with hm | rfl
        · exact hc.2 kv hm
        · exact hs
    · rw [if_neg hn]
      have hmerged : wfProps (mergeFields dprops s) :=
        (mergeWf (jsizeFs dprops)).2 dprops s le_rfl
          (nodupJ_obj_parts hd).2 hs
      refine ⟨?_, ?_⟩
      · rw [setKV_map_fst_some cfg role _ s hlk]
        exact hc.1
      · intro kv hkv
        rcases mem_setKV cfg role _ kv hkv with hm | rfl
        · exact hc.2 kv hm
        · exact hmerged

/-- The dependency defaults a descriptor hands the worklist are of
Python-dict shape. -/
theorem lookupDesc_defaults_wf {reg : Registry} (hrd : wfRegDefaults reg)
    {role nm : String} {d : ComponentDescriptor}
    (hld : reg.lookupDesc role nm = some d) :
    ∀ it ∈ d.depends.map fun rr => (rr, (lookupKV d.defaults rr).getD []),
      wfProps it.2 := by
  intro it hit
  obtain ⟨rr, hrr, rfl⟩ := List.mem_map.mp hit
  cases hdl : lookupKV d.defaults rr with
  | none =>
    have hw : wfProps ([] : Props) := by unfold wfProps; decide
    simpa [hdl] using hw
  | some ps =>
    have hmem := lookupKV_mem _ _ _ hdl
    unfold Registry.lookupDesc at hld
    cases hpl : lookupKV reg.pluggable role with
    | none =>
      rw [hpl] at hld
      exact Option.noConfusion hld
    | some ds =>
      rw [hpl] at hld
      have hw := hrd _ (lookupKV_mem _ _ _ hpl) d
        (List.mem_of_find?_eq_some hld) (rr, ps) hmem
      simpa [hdl] using hw

/-- Dependency synthesis keeps the configuration of Python-dict shape. -/
theorem synthDeps_wf (reg : Registry) (hrd : wfRegDefaults reg) :
    ∀ (fuel : Nat) (wl : List (String × Props)) (cfg cfg' : Config),
    (∀ it ∈ wl, wfProps it.2) → wfConfig cfg →
    synthDeps reg fuel wl cfg = Except.ok cfg' → wfConfig cfg' := by
  intro fuel
  induction fuel with
  | zero =>
    intro wl cfg cfg' hwl hc h
    cases wl with
    | nil =>
      obtain rfl : cfg = cfg' := by simpa [synthDeps] using h
      exact hc
    | cons it tl => simp [synthDeps] at h
  | succ f ihf =>
    intro wl cfg cfg' hwl hc h
    cases wl with
    | nil =>
      obtain rfl : cfg = cfg' := by simpa [synthDeps] using h
      exact hc
    | cons it tl =>
      obtain ⟨role, dprops⟩ := it
      simp only [synthDeps] at h
      cases hgn : getName (synthStep cfg role dprops).1 with
      | none =>
        rw [hgn] at h
        cases h
      | some nm =>
        simp only [hgn] at h
        cases hld : reg.lookupDesc role nm with
        | none =>
          simp only [hld] at h
          cases h
        | some d =>
          simp only [hld] at h
          refine ihf _ _ _ ?_
            (synthStep_wf cfg role dprops hc
              (hwl (role, dprops) (List.mem_cons_self _ _))) h
          intro it' hit'
          rcases List.mem_append.mp hit' with hm | hm
          · exact hwl it' (List.mem_cons_of_mem _ hm)
          · exact lookupDesc_defaults_wf hrd hld it' hm

/-- The merge stage does not touch section names. -/
theorem mergeStage_map_fst (reg : Registry) :
    ∀ cfg cfg', mergeStage reg cfg = Except.ok cfg' →
    cfg'.map Prod.fst = cfg.map Prod.fst := by
  intro cfg
  induction cfg with
  | nil =>
    intro cfg' h
    obtain rfl : ([] : Config) = cfg' := by simpa [mergeStage] using h
    rfl
  | cons hd rest ih =>
    obtain ⟨role, ps⟩ := hd
    intro cfg' h
    simp only [mergeStage] at h
    cases hms : mergeSection reg role ps with
    | error e =>
      rw [hms] at h
      cases h
    | ok ps' =>
      rw [hms] at h
      cases hrest : mergeStage reg rest with
      | error e =>
        rw [hrest] at h
        cases h
      | ok rest' =>
        rw [hrest] at h
        simp only [Except.ok.injEq] at h
        subst h
        simp only [List.map_cons, ih rest' hrest]

/-- The merge stage keeps the configuration of Python-dict shape. -/
theorem mergeStage_wf (reg : Registry) (hwf : wfReg reg) :
    ∀ cfg cfg', wfConfig cfg → mergeStage reg cfg = Except.ok cfg' →
    wfConfig cfg' := by
  intro cfg
  induction cfg with
  | nil =>
    intro cfg' hc h
    obtain rfl : ([] : Config) = cfg' := by simpa [mergeStage] using h
    exact hc
  | cons hd rest ih =>
    obtain ⟨role, ps⟩ := hd
    intro cfg' hc h
    have hc1 : (role :: rest.map Prod.fst).Nodup := by simpa using hc.1
    simp only [mergeStage] at h
    cases hms : mergeSection reg role ps with
    | error e =>
      rw [hms] at h
      cases h
    | ok ps' =>
      rw [hms] at h
      cases hrest : mergeStage reg rest with
      | error e =>
        rw [hrest] at h
        cases h
      | ok rest' =>
        rw [hrest] at h
        simp only [Except.ok.injEq] at h
        subst h
        have hps : wfProps ps := hc.2 (role, ps) (List.mem_cons_self _ _)
        obtain ⟨sch, hsch, rfl⟩ := mergeSection_eq hms
        have hschwf := sectionSchema_wf hwf hsch
        have hps' : wfProps (mergeFields (schemaDefaults sch) ps) :=
          (mergeWf (jsizeFs (schemaDefaults sch))).2 _ ps le_rfl
            (nodupJFs_of_forall hschwf.2) hps
        have hrest_wf : wfConfig rest' :=
          ih rest' ⟨(List.nodup_cons.mp hc1).2,
            fun kv hkv => hc.2 kv (List.mem_cons_of_mem _ hkv)⟩ hrest
        refine ⟨?_, ?_⟩
        · simp only [List.map_cons]
          rw [mergeStage_map_fst reg rest rest' hrest]
          exact hc1
        · intro kv hkv
          rcases List.mem_cons.mp hkv with rfl | hm
          · exact hps'
          · exact hrest_wf.2 kv hm

/-- The resolved configuration of any Python-dict-shaped raw configuration
is itself of Python-dict shape: duplicate-free keys at every level. -/
theorem resolve_wf (reg : Registry) (raw r : Config) (hwf : wfReg reg)
    (hrd : wfRegDefaults reg) (hraw : wfConfig raw)
    (h : resolve reg raw = Except.ok r) : wfConfig r := by
  unfold resolve at h
  cases han : algoSectionName raw with
  | error e => simp [han] at h
  | ok an =>
    simp only [han] at h
    cases hld : reg.lookupDesc "algorithm" an with
    | none => simp [hld] at h
    | some d₀ =>
      simp only [hld] at h
      cases hS : synthDeps reg (selectFuel reg)
          (d₀.depends.map fun rr => (rr, (lookupKV d₀.defaults rr).getD [])) raw with
      | error e => simp [hS] at h
      | ok cfgS =>
        simp only [hS] at h
        cases hM : mergeStage reg cfgS with
        | error e => simp [hM] at h
        | ok cfgM =>
          simp only [hM] at h
          cases hV : validateStage reg cfgM with
          | error e => simp [hV] at h
          | ok u =>
            simp only [hV, Except.ok.injEq] at h
            subst h
            have hS_wf : wfConfig cfgS :=
              synthDeps_wf reg hrd _ _ raw cfgS
                (lookupDesc_defaults_wf hrd hld) hraw hS
            exact mergeStage_wf reg hwf cfgS cfgM hS_wf hM

/-- C2: round trip through persistence. For every raw configuration of
Python-dict shape that resolves successfully under a well-formed registry,
serializing the resolved configuration as run_algorithm_to_json does
(json.dump with sort_keys=True and indent=4, _aqua.py line 130) and
re-parsing the persisted text yields exactly the key-sorted image of the
resolved configuration, a value equal as a Python dictionary to the
resolved configuration itself. -/
theorem c2_round_trip (reg : Registry) (raw r : Config)
    (hwf : wfReg reg) (hrd : wfRegDefaults reg) (hraw : wfConfig raw)
    (h : resolve reg raw = Except.ok r) :
    parseJson (dumpsConfig r) = some (sortJ (configToJ r))
    ∧ jeq (sortJ (configToJ r)) (configToJ r) = true := by
  have hr := resolve_wf reg raw r hwf hrd hraw h
  exact ⟨parseJson_dumpsConfig r,
    jeq_sortJ (nodupJ_configToJ hr.1 fun kv hkv => hr.2 kv hkv)⟩

/-- Concrete round trip: scenario A resolves, persists, and re-parses to a
value Python-equal to the resolved configuration. -/
theorem c2_round_trip_witness :
    parseJson (dumpsConfig scenarioAResolved)
      = some (sortJ (configToJ scenarioAResolved))
    ∧ jeq (sortJ (configToJ scenarioAResolved)) (configToJ scenarioAResolved)
      = true :=
  c2_round_trip reg0 [("algorithm", [("name", JValue.str "QAOA.Variational")])]
    scenarioAResolved (by unfold wfReg wfSchemaProp; decide)
    (by unfold wfRegDefaults wfProps; decide)
    (by unfold wfConfig wfProps; decide) rfl

theorem mergeValue_int (d : JValue) (n : Int) :
    mergeValue d (JValue.int n) = JValue.int n := by
  cases d <;> rfl

/-- Merging preserves any integer binding of the value side. -/
theorem lookup_mergeFields_int (dfs : List (String × JValue)) :
    ∀ (vfs : List (String × JValue)) (k : String) (n : Int),
    lookupKV vfs k = some (JValue.int n) →
    lookupKV (mergeFields dfs vfs) k = some (JValue.int n) := by
  induction dfs with
  | nil => intro vfs k n h; simpa [mergeFields] using h
  | cons hd rest ih =>
    obtain ⟨k0, dv⟩ := hd
    intro vfs k n h
    simp only [mergeFields]
    cases hl : lookupKV vfs k0 with
    | none =>
      exact ih _ k n (lookupKV_append_of_eq_some _ _ _ _ h)
    | some v =>
      by_cases hk : k0 = k
      · subst hk
        rw [hl] at h
        obtain rfl : v = JValue.int n := by injection h
        refine ih _ k0 n ?_
        rw [mergeValue_int, setKV_lookup_self _ _ _ hl]
        exact hl
      · refine ih _ k n ?_
        rw [lookupKV_setKV_other _ _ _ _ fun he => hk he.symm]
        exact h

/-- A passing validation stage validated every section. -/
theorem validateStage_ok_mem (reg : Registry) :
    ∀ (cfg : Config) (u : Unit), validateStage reg cfg = Except.ok u →
    ∀ (role : String) (ps : Props), (role, ps) ∈ cfg →
    validateSection reg role ps = Except.ok () := by
  intro cfg
  induction cfg with
  | nil =>
    intro u h role ps hmem
    cases hmem
  | cons hd rest ih =>
    obtain ⟨role0, ps0⟩ := hd
    intro u h role ps hmem
    simp only [validateStage] at h
    cases hv0 : validateSection reg role0 ps0 with
    | error e =>
      simp only [hv0] at h
      cases h
    | ok w =>
      simp only [hv0] at h
      rcases List.mem_cons.mp hmem with he | hm
      · simp only [Prod.mk.injEq] at he
        obtain ⟨rfl, rfl⟩ := he
        cases w
        exact hv0
      · exact ih u h role ps hm

/-- A passing section validation validated every property the schema
declares against its contract. -/
theorem validatePropsAgainst_ok_lookup (role : String) (sch : Schema) :
    ∀ (ps : Props) (u : Unit), validatePropsAgainst role sch ps = Except.ok u →
    ∀ (k : String) (v : JValue), (k, v) ∈ ps → k ≠ "name" →
    ∀ psch, lookupKV sch.properties k = some psch →
    validateProp role k psch v = Except.ok () := by
  intro ps
  induction ps with
  | nil =>
    intro u h k v hmem
    cases hmem
  | cons hd tl ih =>
    obtain ⟨k0, v0⟩ := hd
    intro u h k v hmem hkn psch hq
    simp only [validatePropsAgainst] at h
    by_cases hk0 : k0 = "name"
    · rw [if_pos hk0] at h
      cases v0 with
      | str s =>
        rcases List.mem_cons.mp hmem with he | hm
        · simp only [Prod.mk.injEq] at he
          exact absurd (he.1.trans hk0) hkn
        · exact ih u h k v hm hkn psch hq
      | null => cases h
      | bool b => cases h
      | int m => cases h
      | arr xs => cases h
      | obj fs => cases h
    · rw [if_neg hk0] at h
      cases hq0 : lookupKV sch.properties k0 with
      | none =>
        simp only [hq0] at h
        by_cases hap : sch.additionalProperties = true
        · rw [if_pos hap] at h
          rcases List.mem_cons.mp hmem with he | hm
          · simp only [Prod.mk.injEq] at he
            rw [he.1] at hq
            rw [hq0] at hq
            cases hq
          · exact ih u h k v hm hkn psch hq
        · rw [if_neg hap] at h
          cases h
      | some ps0 =>
        simp only [hq0] at h
        cases hvp : validateProp role k0 ps0 v0 with
        | error e =>
          simp only [hvp] at h
          cases h
        | ok w =>
          simp only [hvp] at h
          rcases List.mem_cons.mp hmem with he | hm
          · simp only [Prod.mk.injEq] at he
            obtain ⟨rfl, rfl⟩ := he
            have hps : psch = ps0 := by
              rw [hq0] at hq
              injection hq with h'
              exact h'.symm
            subst hps
            cases w
            exact hvp
          · exact ih u h k v hm hkn psch hq

/-- Any section selecting QAOA.Variational is governed by QAOA's schema. -/
theorem sectionSchema_qaoa {aps : Props}
    (hgn : getName aps = some "QAOA.Variational") :
    sectionSchema reg0 "algorithm" aps = Except.ok qaoaDescriptor.schema := by
  unfold sectionSchema
  have h1 : lookupKV reg0.plain "algorithm" = none := rfl
  have h2 : lookupKV reg0.pluggable "algorithm" = some [qaoaDescriptor] := rfl
  have h3 : reg0.lookupDesc "algorithm" "QAOA.Variational"
      = some qaoaDescriptor := rfl
  simp only [h1, h2, hgn, h3]

/-- Setting p to 0 for QAOA can never resolve: the p binding survives
synthesis and merging unchanged, and validating it against the declared
minimum 1 fails, so a fully successful validation stage is impossible. -/
theorem resolve_p0_fails (raw : Config) (aps : Props) (r : Config)
    (hlk : lookupKV raw "algorithm" = some aps)
    (hgn : getName aps = some "QAOA.Variational")
    (hp : lookupKV aps "p" = some (JValue.int 0))
    (hres : resolve reg0 raw = Except.ok r) : False := by
  have han : algoSectionName raw = Except.ok "QAOA.Variational" := by
    unfold algoSectionName
    simp only [hlk, hgn]
  have hld : reg0.lookupDesc "algorithm" "QAOA.Variational"
      = some qaoaDescriptor := rfl
  unfold resolve at hres
  simp only [han, hld] at hres
  cases hS : synthDeps reg0 (selectFuel reg0)
      (qaoaDescriptor.depends.map
        fun rr => (rr, (lookupKV qaoaDescriptor.defaults rr).getD [])) raw with
  | error e =>
    simp only [hS] at hres
    cases hres
  | ok cfgS =>
    simp only [hS] at hres
    cases hM : mergeStage reg0 cfgS with
    | error e =>
      simp only [hM] at hres
      cases hres
    | ok cfgM =>
      simp only [hM] at hres
      cases hV : validateStage reg0 cfgM with
      | error e =>
        simp only [hV] at hres
        cases hres
      | ok u =>
        have hSalg : lookupKV cfgS "algorithm" = some aps :=
          synthDeps_preserves_named reg0 _ _ _ _ hS "algorithm"
            "QAOA.Variational" aps hlk hgn
        obtain ⟨ps', hms, hMalg⟩ :=
          mergeStage_lookup reg0 cfgS cfgM "algorithm" aps hM hSalg
        have hss : sectionSchema reg0 "algorithm" aps
            = Except.ok qaoaDescriptor.schema := sectionSchema_qaoa hgn
        have hps' : ps'
            = mergeFields (schemaDefaults qaoaDescriptor.schema) aps := by
          unfold mergeSection at hms
          simp only [hss] at hms
          injection hms with h'
          exact h'.symm
        have hp' : lookupKV ps' "p" = some (JValue.int 0) := by
          rw [hps']
          exact lookup_mergeFields_int _ _ _ _ hp
        have hgn' : getName ps' = some "QAOA.Variational" := by
          rw [hps']
          exact getName_of_lookup
            (lookup_mergeFields_str _ _ _ _ (getName_eq_str hgn))
        have hvs : validateSection reg0 "algorithm" ps' = Except.ok () :=
          validateStage_ok_mem reg0 cfgM u hV "algorithm" ps'
            (lookupKV_mem _ _ _ hMalg)
        have hss' : sectionSchema reg0 "algorithm" ps'
            = Except.ok qaoaDescriptor.schema := sectionSchema_qaoa hgn'
        have hvpa : validatePropsAgainst "algorithm" qaoaDescriptor.schema ps'
            = Except.ok () := by
          unfold validateSection at hvs
          simp only [hss'] at hvs
          exact hvs
        have hq : lookupKV qaoaDescriptor.schema.properties "p"
            = some { types := [PrimType.pInteger]
                     default := some (JValue.int 1)
                     minimum := some 1
                     enumVals := none
                     itemTypes := none } := rfl
        have hvalp := validatePropsAgainst_ok_lookup "algorithm"
          qaoaDescriptor.schema ps' () hvpa "p" (JValue.int 0)
          (lookupKV_mem _ _ _ hp') (by decide) _ hq
        have hbad : validateProp "algorithm" "p"
            { types := [PrimType.pInteger]
              default := some (JValue.int 1)
              minimum := some 1
              enumVals := none
              itemTypes := none } (JValue.int 0)
            = Except.error (ResolveError.configurationError "algorithm" "p"
                "value below declared minimum") := rfl
        rw [hbad] at hvalp
        cases hvalp

/-- C4 counterexample: the claim fails on a configuration whose algorithm
section carries an unknown property listed before "p". Validation reports
the first violation (spec section 4.2 step 3), a ConfigurationError naming
"extra_knob", not "p". -/
theorem c4_counterexample : ¬ schemaRejectionClaim reg0 c4cex := by
  intro h
  obtain ⟨msg, hmsg⟩ := h
    [ ("name", JValue.str "QAOA.Variational")
    , ("extra_knob", JValue.int 1)
    , ("p", JValue.int 0) ] rfl rfl rfl
  have hres : resolve reg0 c4cex
      = Except.error (ResolveError.configurationError "algorithm" "extra_knob"
          "unknown property") := rfl
  rw [hres] at hmsg
  injection hmsg with h1
  injection h1 with ha hb
  exact absurd hb (by decide)

/-- C4, amended: for every raw configuration whose algorithm section
selects QAOA and sets "p" to 0 (QAOA's schema declares minimum 1, qaoa.py
lines 50-54), resolution fails — no resolved configuration is ever
produced — run_algorithm therefore aborts before construction, and no
component is constructed; the reported error names section "algorithm" and
property "p" when the p violation is the first one encountered, as in the
concrete scenario-B configuration. -/
theorem c4_schema_constraint_rejection_amended :
    (∀ (raw : Config) (aps : Props),
      lookupKV raw "algorithm" = some aps →
      getName aps = some "QAOA.Variational" →
      lookupKV aps "p" = some (JValue.int 0) →
      (∀ r, resolve reg0 raw ≠ Except.ok r)
      ∧ ∀ b, constructedComponents reg0 raw b = [])
    ∧ resolve reg0 c4raw
        = Except.error (ResolveError.configurationError "algorithm" "p"
            "value below declared minimum")
    ∧ runAlgorithm reg0 c4raw none
        = Except.error (RunError.resolutionFailed
            (ResolveError.configurationError "algorithm" "p"
              "value below declared minimum"))
    ∧ constructedComponents reg0 c4raw none = [] := by
  refine ⟨?_, rfl, rfl, rfl⟩
  intro raw aps hlk hgn hp
  have hfail : ∀ r, resolve reg0 raw ≠ Except.ok r :=
    fun r hres => resolve_p0_fails raw aps r hlk hgn hp hres
  refine ⟨hfail, ?_⟩
  intro b
  unfold constructedComponents runAlgorithm
  cases hres : resolve reg0 raw with
  | error e => rfl
  | ok r => exact absurd hres (hfail r)

/-- Concrete instantiation: scenario B's configuration can resolve to
nothing and constructs nothing. -/
theorem c4_schema_constraint_rejection_amended_witness :
    (∀ r, resolve reg0 c4raw ≠ Except.ok r)
    ∧ ∀ b, constructedComponents reg0 c4raw b = [] :=
  c4_schema_constraint_rejection_amended.1 c4raw
    [("name", JValue.str "QAOA.Variational"), ("p", JValue.int 0)]
    rfl rfl rfl

end Aqua
